import Mathlib

/-!
Formal model of the XPostLab constrained generation pipeline.

Strings are modelled as `List Char` (`Str`); JavaScript string operations
(slice, trim, regex replaces) become executable functions on `Str`.
The subword tokenizer (the `@dqbd/tiktoken` cl100k_base encoder) is a
third-party dependency, modelled as an abstract `Tokenizer` with the
properties the pipeline relies on stated as explicit predicates.
-/

namespace XPostLab

/-- JavaScript strings, modelled at the character level. -/
abbrev Str := List Char

/-- Turn a Lean string literal into a `Str`. -/
def strL (s : String) : Str := s.data

/-- Whitespace class used to model both the regex `\s` and JS `trim` /
`trimEnd` (the common ASCII whitespace characters). -/
def isWs (c : Char) : Bool :=
  c = ' ' || c = '\t' || c = '\n' || c = '\r' || c = Char.ofNat 11 || c = Char.ofNat 12

/-- A character that may appear inside a hashtag token, per the regex
`[^\s#]`. -/
def isTokChar (c : Char) : Bool := !isWs c && c != '#'

/-- JS `trimStart`. -/
def trimStart (s : Str) : Str := s.dropWhile isWs

/-- JS `trimEnd`. -/
def trimEnd (s : Str) : Str := (s.reverse.dropWhile isWs).reverse

/-- JS `trim`. -/
def trim (s : Str) : Str := trimEnd (trimStart s)

/-- JS `toLowerCase`, modelled character-wise. -/
def lowerStr (s : Str) : Str := s.map Char.toLower

/-- Index of the first occurrence of `pat` in `s` (JS `indexOf`). -/
def substrIndex : Str → Str → Option Nat
  | s, pat =>
    if pat.isPrefixOf s then some 0
    else
      match s with
      | [] => none
      | _ :: rest => (substrIndex rest pat).map (· + 1)

/-- JS `includes`. -/
def containsSub (s pat : Str) : Bool := (substrIndex s pat).isSome

/-- JS `split(' ')` (split on a single literal space). -/
def splitSpace : Str → List Str
  | [] => [[]]
  | c :: rest =>
    if c = ' ' then [] :: splitSpace rest
    else
      match splitSpace rest with
      | h :: t => (c :: h) :: t
      | [] => [[c]]

/-- JS `Array.join(sep)`. -/
def joinSep (sep : Str) : List Str → Str
  | [] => []
  | [x] => x
  | x :: xs => x ++ sep ++ joinSep sep xs

/-- JS `Array.from(new Set(xs))`: deduplicate keeping first occurrences.
Fuelled for kernel reducibility. -/
def dedupFirstF : Nat → List Str → List Str
  | 0, l => l
  | _ + 1, [] => []
  | fuel + 1, a :: l => a :: dedupFirstF fuel (l.filter (· ≠ a))

def dedupFirst (l : List Str) : List Str := dedupFirstF l.length l

/-- `p` occurs at the start of `s`. -/
def PrefixOf (p s : Str) : Prop := ∃ t, p ++ t = s

/-- `p` occurs at the end of `s`. -/
def SuffixOf (p s : Str) : Prop := ∃ t, t ++ p = s

/-- `p` occurs contiguously somewhere in `s` (the spec's "appears verbatim"). -/
def InfixOf (p s : Str) : Prop := ∃ a b, a ++ p ++ b = s

theorem PrefixOf.length_le {p s : Str} (h : PrefixOf p s) : p.length ≤ s.length := by
  obtain ⟨t, rfl⟩ := h
  simp

theorem prefixOf_infixOf {p s : Str} (h : PrefixOf p s) : InfixOf p s := by
  obtain ⟨t, rfl⟩ := h
  exact ⟨[], t, rfl⟩

theorem suffixOf_infixOf {p s : Str} (h : SuffixOf p s) : InfixOf p s := by
  obtain ⟨t, rfl⟩ := h
  exact ⟨t, [], by simp⟩

theorem InfixOf.trans {p q s : Str} (h₁ : InfixOf p q) (h₂ : InfixOf q s) : InfixOf p s := by
  obtain ⟨a, b, rfl⟩ := h₁
  obtain ⟨c, d, rfl⟩ := h₂
  exact ⟨c ++ a, b ++ d, by simp⟩

theorem PrefixOf.eq_of_length {p s : Str} (h : PrefixOf p s) (hl : p.length = s.length) :
    p = s := by
  obtain ⟨t, rfl⟩ := h
  simp at hl
  simp [← hl]

theorem takePrefixOf (s : Str) (k : Nat) : PrefixOf (s.take k) s :=
  ⟨s.drop k, s.take_append_drop k⟩

theorem dropWhileSuffixOf (p : Char → Bool) : ∀ s : Str, SuffixOf (s.dropWhile p) s
  | [] => ⟨[], rfl⟩
  | c :: rest => by
    by_cases h : p c
    · obtain ⟨t, ht⟩ := dropWhileSuffixOf p rest
      exact ⟨c :: t, by simp [List.dropWhile, h, ht]⟩
    · exact ⟨[], by simp [List.dropWhile, h]⟩

theorem trimStartSuffixOf (s : Str) : SuffixOf (trimStart s) s := dropWhileSuffixOf _ s

theorem trimEndPrefixOf (s : Str) : PrefixOf (trimEnd s) s := by
  obtain ⟨t, ht⟩ := dropWhileSuffixOf isWs s.reverse
  refine ⟨t.reverse, ?_⟩
  have := congrArg List.reverse ht
  simpa [trimEnd] using this

theorem trimInfixOf (s : Str) : InfixOf (trim s) s :=
  (prefixOf_infixOf (trimEndPrefixOf (trimStart s))).trans (suffixOf_infixOf (trimStartSuffixOf s))

theorem trimStart_length_le (s : Str) : (trimStart s).length ≤ s.length := by
  obtain ⟨t, ht⟩ := trimStartSuffixOf s
  calc (trimStart s).length ≤ t.length + (trimStart s).length := Nat.le_add_left _ _
    _ = s.length := by rw [← List.length_append, ht]

theorem trimEnd_length_le (s : Str) : (trimEnd s).length ≤ s.length :=
  (trimEndPrefixOf s).length_le

theorem trim_length_le (s : Str) : (trim s).length ≤ s.length :=
  le_trans (trimEnd_length_le _) (trimStart_length_le s)

theorem dropWhile_length_le (p : Char → Bool) (s : Str) :
    (s.dropWhile p).length ≤ s.length := by
  obtain ⟨t, ht⟩ := dropWhileSuffixOf p s
  calc (s.dropWhile p).length ≤ t.length + (s.dropWhile p).length := Nat.le_add_left _ _
    _ = s.length := by rw [← List.length_append, ht]

/-! ## The tokenizer collaborator

`countTokens` / `truncateToTokenLimit` in `token-utils.ts` delegate to the
`@dqbd/tiktoken` cl100k_base encoder, an external package that is not part
of this repository.  It is modelled as an abstract encoder/decoder pair;
the two properties below capture the behaviour of a subword tokenizer that
the budget-enforcement code relies on. -/

/-- Modelled from the spec: the external fixed subword-tokenization scheme
(`@dqbd/tiktoken` cl100k_base), reduced to its encode/decode interface. -/
structure Tokenizer where
  encode : Str → List Nat
  decode : List Nat → Str

/-- Decoding a prefix of a string's encoding yields a prefix of the string
(token boundaries partition the text). -/
def Tokenizer.PrefixStable (tk : Tokenizer) : Prop :=
  ∀ (s : Str) (k : Nat), PrefixOf (tk.decode ((tk.encode s).take k)) s

/-- Re-encoding the decoding of a `k`-token prefix uses at most `k` tokens. -/
def Tokenizer.ReencodeStable (tk : Tokenizer) : Prop :=
  ∀ (s : Str) (k : Nat), (tk.encode (tk.decode ((tk.encode s).take k))).length ≤ k

/-- A simple concrete tokenizer (one token per character) used to witness
theorems that are parametric in the tokenizer. -/
def charTok : Tokenizer where
  encode s := s.map Char.toNat
  decode l := l.map Char.ofNat

theorem charTok_decode_encode_take (s : Str) (k : Nat) :
    charTok.decode ((charTok.encode s).take k) = s.take k := by
  simp only [charTok, ← List.map_take, List.map_map]
  have h : (Char.ofNat ∘ Char.toNat) = id := funext fun c => Char.ofNat_toNat c
  rw [h, List.map_id]

theorem charTok_prefixStable : charTok.PrefixStable := by
  intro s k
  rw [charTok_decode_encode_take]
  exact takePrefixOf s k

theorem charTok_reencodeStable : charTok.ReencodeStable := by
  intro s k
  rw [charTok_decode_encode_take]
  simp [charTok]

/-! ## `token-utils.ts` -/

/-- `normalizeToString`, restricted to string inputs (on which it is the
identity); all content flowing through the modelled pipeline is a string. -/
def normalizeToString (s : Str) : Str := s

/-- `countTokens` (token-utils.ts). -/
def countTokens (tk : Tokenizer) (text : Str) : Nat :=
  let normalized := normalizeToString text
  if normalized.isEmpty then 0 else (tk.encode normalized).length

structure TruncateResult where
  text : Str
  tokens : Nat
  wasTruncated : Bool
  deriving DecidableEq

/-- `truncateToTokenLimit` (token-utils.ts). -/
def truncateToTokenLimit (tk : Tokenizer) (text : Str) (maxTokens : Int) : TruncateResult :=
  let normalized := normalizeToString text
  if maxTokens ≤ 0 then
    { text := [], tokens := 0, wasTruncated := decide (0 < normalized.length) }
  else
    let tokens := tk.encode normalized
    if (tokens.length : Int) ≤ maxTokens then
      { text := normalized, tokens := tokens.length, wasTruncated := false }
    else
      let truncatedTokens := tokens.take maxTokens.toNat
      { text := tk.decode truncatedTokens, tokens := truncatedTokens.length,
        wasTruncated := true }

/-- `approxCharsPerToken` (token-utils.ts). -/
def approxCharsPerToken : Int := 4

/-- `Math.ceil(x / approxCharsPerToken())` on integers. -/
def ceilDiv4 (x : Int) : Int := (x + 3) / 4

structure LimitEnforcementResult where
  text : Str
  tokens : Nat
  wasTruncated : Bool
  tokenOverflow : Int
  charOverflow : Int
  deriving DecidableEq

/-- `clampToCharLimit` (token-utils.ts). -/
def clampToCharLimit (text : Str) (maxLength : Option Int) : Str :=
  let normalized := normalizeToString text
  match maxLength with
  | none => normalized
  | some n =>
    if n ≤ 0 then []
    else if (normalized.length : Int) ≤ n then normalized
    else if n ≤ 3 then normalized.take n.toNat
    else
      let prefixPart := normalized.take (n - 3).toNat
      trimEnd prefixPart ++ strL ("...")

/-- Intermediate state threaded through the passes of `applyOutputLimits`
(the local variables `currentText`, `tokenOverflow`, `charOverflow`,
`wasTruncated`). -/
structure LimState where
  text : Str
  tokenOverflow : Int
  charOverflow : Int
  wasTruncated : Bool
  deriving DecidableEq

/-- One guarded token-truncation pass of `applyOutputLimits` (the first
pass starts from `tokenOverflow = 0`, so recording the overflow and taking
`max` with the previous overflow coincide). -/
def tokenPass (tk : Tokenizer) (maxTokens : Option Int) (st : LimState) : LimState :=
  match maxTokens with
  | some mT =>
    if 0 < mT ∧ mT < (countTokens tk st.text : Int) then
      let overflow := max st.tokenOverflow ((countTokens tk st.text : Int) - mT)
      let truncated := truncateToTokenLimit tk st.text mT
      { st with text := truncated.text, tokenOverflow := overflow,
                wasTruncated := st.wasTruncated || truncated.wasTruncated ||
                  decide (0 < overflow) }
    else st
  | none => st

/-- One guarded char-clamping pass of `applyOutputLimits`. -/
def charPass (maxLength : Option Int) (st : LimState) : LimState :=
  match maxLength with
  | some mL =>
    if 0 < mL ∧ mL < (st.text.length : Int) then
      { st with text := clampToCharLimit st.text (some mL),
                charOverflow := max st.charOverflow ((st.text.length : Int) - mL),
                wasTruncated := true }
    else st
  | none => st

/-- Initial pass state of `applyOutputLimits`. -/
def initState (s : Str) : LimState :=
  { text := s, tokenOverflow := 0, charOverflow := 0, wasTruncated := false }

/-- `applyOutputLimits` (token-utils.ts): token truncation, then char
clamping, then one re-check/re-application of each, then final overflow
accounting (which no longer modifies the text). -/
def applyOutputLimits (tk : Tokenizer) (text : Str) (maxTokens maxLength : Option Int) :
    LimitEnforcementResult :=
  let st0 : LimState := initState (normalizeToString text)
  let st := charPass maxLength (tokenPass tk maxTokens (charPass maxLength
    (tokenPass tk maxTokens st0)))
  let finalTokens := countTokens tk st.text
  let tokenOverflowF : Int :=
    match maxTokens with
    | some mT =>
      if 0 < mT ∧ mT < (finalTokens : Int) then
        max st.tokenOverflow ((finalTokens : Int) - mT)
      else st.tokenOverflow
    | none => st.tokenOverflow
  let charOverflowF : Int :=
    match maxLength with
    | some mL =>
      if 0 < mL ∧ mL < (st.text.length : Int) then
        max st.charOverflow ((st.text.length : Int) - mL)
      else st.charOverflow
    | none => st.charOverflow
  { text := st.text, tokens := finalTokens, wasTruncated := st.wasTruncated,
    tokenOverflow := tokenOverflowF, charOverflow := charOverflowF }

/-! ### Properties of `clampToCharLimit` -/

theorem clampToCharLimit_none (s : Str) : clampToCharLimit s none = s := rfl

theorem clampToCharLimit_nonpos (s : Str) {n : Int} (h : n ≤ 0) :
    clampToCharLimit s (some n) = [] := by
  simp [clampToCharLimit, normalizeToString, h]

theorem clampToCharLimit_of_le (s : Str) {n : Int} (h0 : ¬ n ≤ 0)
    (h : (s.length : Int) ≤ n) : clampToCharLimit s (some n) = s := by
  simp [clampToCharLimit, normalizeToString, h0, h]

theorem clampToCharLimit_length_le (s : Str) {n : Int} (h0 : 0 ≤ n) :
    ((clampToCharLimit s (some n)).length : Int) ≤ n := by
  simp only [clampToCharLimit, normalizeToString]
  split_ifs with h1 h2 h3
  · simpa using h0
  · exact h2
  · have h4 : (s.take n.toNat).length ≤ n.toNat := by
      simp [List.length_take]
    calc ((s.take n.toNat).length : Int) ≤ (n.toNat : Int) := by exact_mod_cast h4
      _ = n := Int.toNat_of_nonneg h0
  · push_neg at h3
    have hlen : (trimEnd (s.take (n - 3).toNat)).length ≤ (n - 3).toNat := by
      calc (trimEnd (s.take (n - 3).toNat)).length
          ≤ (s.take (n - 3).toNat).length := trimEnd_length_le _
        _ ≤ (n - 3).toNat := by simp [List.length_take]
    have h3' : (0 : Int) ≤ n - 3 := by omega
    have : ((trimEnd (s.take (n - 3).toNat)).length : Int) ≤ n - 3 := by
      calc ((trimEnd (s.take (n - 3).toNat)).length : Int)
          ≤ ((n - 3).toNat : Int) := by exact_mod_cast hlen
        _ = n - 3 := Int.toNat_of_nonneg h3'
    simp only [List.length_append]
    have hdots : (strL ("...")).length = 3 := rfl
    push_cast [hdots]
    omega

theorem clampToCharLimit_length_le_self (s : Str) (n : Int) :
    (clampToCharLimit s (some n)).length ≤ s.length := by
  simp only [clampToCharLimit, normalizeToString]
  split_ifs with h1 h2 h3
  · simp
  · exact le_rfl
  · simp [List.length_take]
  · push_neg at h2 h3
    have hb : ((clampToCharLimit s (some n)).length : Int) ≤ n :=
      clampToCharLimit_length_le s (by omega)
    have : (clampToCharLimit s (some n)).length ≤ s.length := by
      have hsn : n < (s.length : Int) := h2
      omega
    simp only [clampToCharLimit, normalizeToString, h1, if_false, not_le.mpr h2,
      not_le.mpr h3] at this ⊢
    exact this

theorem clampToCharLimit_length_lt (s : Str) {n : Int} (h0 : ¬ n ≤ 0)
    (h : n < (s.length : Int)) :
    (clampToCharLimit s (some n)).length < s.length := by
  have hb : ((clampToCharLimit s (some n)).length : Int) ≤ n :=
    clampToCharLimit_length_le s (by omega)
  omega

/-- C8 — `clampToCharLimit` is idempotent. -/
theorem clampToCharLimit_idempotent (x : Str) (n : Int) :
    clampToCharLimit (clampToCharLimit x (some n)) (some n) = clampToCharLimit x (some n) := by
  by_cases hn : n ≤ 0
  · rw [clampToCharLimit_nonpos x hn, clampToCharLimit_nonpos _ hn]
  · have hy : ((clampToCharLimit x (some n)).length : Int) ≤ n :=
      clampToCharLimit_length_le x (by omega)
    exact clampToCharLimit_of_le _ hn hy

/-! ### Properties of `truncateToTokenLimit` -/

theorem truncateToTokenLimit_prefixOf {tk : Tokenizer} (hB : tk.PrefixStable)
    (s : Str) (mT : Int) : PrefixOf (truncateToTokenLimit tk s mT).text s := by
  simp only [truncateToTokenLimit, normalizeToString]
  split_ifs with h1 h2
  · exact ⟨s, rfl⟩
  · exact ⟨[], by simp⟩
  · exact hB s mT.toNat

theorem truncateToTokenLimit_tokens_le {tk : Tokenizer} (hA : tk.ReencodeStable)
    (s : Str) {mT : Int} (h : 0 < mT) :
    ((countTokens tk (truncateToTokenLimit tk s mT).text : Nat) : Int) ≤ mT := by
  simp only [truncateToTokenLimit, normalizeToString]
  have h1 : ¬ mT ≤ 0 := by omega
  simp only [h1, if_false]
  split_ifs with h2
  · by_cases hs : s.isEmpty
    · simp [countTokens, normalizeToString, hs]
      omega
    · simpa [countTokens, normalizeToString, hs] using h2
  · by_cases hs : (tk.decode ((tk.encode s).take mT.toNat)).isEmpty
    · simp [countTokens, normalizeToString, hs]
      omega
    · have := hA s mT.toNat
      simp only [countTokens, normalizeToString, hs, if_false]
      calc ((tk.encode (tk.decode ((tk.encode s).take mT.toNat))).length : Int)
          ≤ (mT.toNat : Int) := by exact_mod_cast this
        _ = mT := Int.toNat_of_nonneg (by omega)

theorem truncateToTokenLimit_ne {tk : Tokenizer} (hA : tk.ReencodeStable)
    (s : Str) {mT : Int} (h : 0 < mT) (hover : mT < ((tk.encode s).length : Int)) :
    (truncateToTokenLimit tk s mT).text ≠ s := by
  simp only [truncateToTokenLimit, normalizeToString]
  have h1 : ¬ mT ≤ 0 := by omega
  have h2 : ¬ ((tk.encode s).length : Int) ≤ mT := by omega
  simp only [h1, if_false, h2]
  intro heq
  have := hA s mT.toNat
  rw [heq] at this
  have : ((tk.encode s).length : Int) ≤ mT := by
    calc ((tk.encode s).length : Int) ≤ (mT.toNat : Int) := by exact_mod_cast this
      _ = mT := Int.toNat_of_nonneg (by omega)
  omega

theorem truncateToTokenLimit_length_le {tk : Tokenizer} (hB : tk.PrefixStable)
    (s : Str) (mT : Int) : (truncateToTokenLimit tk s mT).text.length ≤ s.length :=
  (truncateToTokenLimit_prefixOf hB s mT).length_le

theorem truncateToTokenLimit_length_lt {tk : Tokenizer} (hA : tk.ReencodeStable)
    (hB : tk.PrefixStable) (s : Str) {mT : Int} (h : 0 < mT)
    (hover : mT < ((tk.encode s).length : Int)) :
    (truncateToTokenLimit tk s mT).text.length < s.length := by
  have hpre := truncateToTokenLimit_prefixOf hB s mT
  have hne := truncateToTokenLimit_ne hA s h hover
  have hle := hpre.length_le
  rcases lt_or_eq_of_le hle with hlt | heq
  · exact hlt
  · exact absurd (hpre.eq_of_length heq) hne

/-! ### Properties of `applyOutputLimits` -/

theorem tokenPass_tokens_le {tk : Tokenizer} (hA : tk.ReencodeStable)
    {mT : Int} (h : 0 < mT) (st : LimState) :
    ((countTokens tk (tokenPass tk (some mT) st).text : Nat) : Int) ≤ mT := by
  simp only [tokenPass]
  split_ifs with hfire
  · exact truncateToTokenLimit_tokens_le hA _ h
  · push_neg at hfire
    exact hfire h

theorem tokenPass_prefixOf {tk : Tokenizer} (hB : tk.PrefixStable)
    (mT? : Option Int) (st : LimState) :
    PrefixOf (tokenPass tk mT? st).text st.text := by
  rcases mT? with _ | mT
  · exact ⟨[], by simp [tokenPass]⟩
  · simp only [tokenPass]
    split_ifs with hfire
    · exact truncateToTokenLimit_prefixOf hB _ _
    · exact ⟨[], by simp⟩

theorem tokenPass_length_le {tk : Tokenizer} (hB : tk.PrefixStable)
    (mT? : Option Int) (st : LimState) :
    (tokenPass tk mT? st).text.length ≤ st.text.length :=
  (tokenPass_prefixOf hB mT? st).length_le

theorem tokenPass_not_truncated {tk : Tokenizer} {mT? : Option Int} {st : LimState}
    (h : (tokenPass tk mT? st).wasTruncated = false) :
    (tokenPass tk mT? st).text = st.text ∧ st.wasTruncated = false := by
  rcases mT? with _ | mT
  · exact ⟨rfl, h⟩
  · simp only [tokenPass] at h ⊢
    split_ifs at h ⊢ with hfire
    · exfalso
      simp only [Bool.or_eq_false_iff, decide_eq_false_iff_not, not_lt] at h
      have := h.2
      omega
    · exact ⟨rfl, h⟩

theorem tokenPass_truncated_mono {tk : Tokenizer} {mT? : Option Int} {st : LimState}
    (h : st.wasTruncated = true) : (tokenPass tk mT? st).wasTruncated = true := by
  rcases mT? with _ | mT
  · exact h
  · simp only [tokenPass]
    split_ifs <;> simp [h]

theorem tokenPass_length_lt {tk : Tokenizer} (hA : tk.ReencodeStable)
    (hB : tk.PrefixStable) {mT : Int} (h : 0 < mT) {st : LimState}
    (hover : mT < (countTokens tk st.text : Int)) :
    (tokenPass tk (some mT) st).text.length < st.text.length := by
  simp only [tokenPass, if_pos (And.intro h hover)]
  have hne : st.text ≠ [] := by
    intro hnil
    rw [hnil] at hover
    simp [countTokens, normalizeToString] at hover
    omega
  have henc : mT < ((tk.encode st.text).length : Int) := by
    simpa [countTokens, normalizeToString, List.isEmpty_iff, hne] using hover
  exact truncateToTokenLimit_length_lt hA hB _ h henc

theorem charPass_length_le {mL : Int} (h : 0 < mL) (st : LimState) :
    (((charPass (some mL) st).text.length : Nat) : Int) ≤ mL := by
  simp only [charPass]
  split_ifs with hfire
  · exact clampToCharLimit_length_le _ (by omega)
  · push_neg at hfire
    exact hfire h

theorem charPass_length_le_self (mL? : Option Int) (st : LimState) :
    (charPass mL? st).text.length ≤ st.text.length := by
  rcases mL? with _ | mL
  · exact le_rfl
  · simp only [charPass]
    split_ifs with hfire
    · exact clampToCharLimit_length_le_self _ _
    · exact le_rfl

theorem charPass_not_truncated {mL? : Option Int} {st : LimState}
    (h : (charPass mL? st).wasTruncated = false) :
    (charPass mL? st).text = st.text ∧ st.wasTruncated = false := by
  rcases mL? with _ | mL
  · exact ⟨rfl, h⟩
  · simp only [charPass] at h ⊢
    split_ifs at h ⊢ with hfire
    exact ⟨rfl, h⟩

theorem charPass_truncated_mono {mL? : Option Int} {st : LimState}
    (h : st.wasTruncated = true) : (charPass mL? st).wasTruncated = true := by
  rcases mL? with _ | mL
  · exact h
  · simp only [charPass]
    split_ifs <;> simp [h]

theorem charPass_length_lt {mL : Int} (h : 0 < mL) {st : LimState}
    (hover : mL < (st.text.length : Int)) :
    (charPass (some mL) st).text.length < st.text.length := by
  simp only [charPass, if_pos (And.intro h hover)]
  exact clampToCharLimit_length_lt _ (by omega) hover

theorem charPass_no_fire {mL : Int} {st : LimState}
    (h : (st.text.length : Int) ≤ mL) : charPass (some mL) st = st := by
  simp only [charPass]
  rw [if_neg]
  push_neg
  intro _
  exact h

/-- The text `applyOutputLimits` returns is the result of the four passes. -/
theorem applyOutputLimits_text (tk : Tokenizer) (s : Str) (mT? mL? : Option Int) :
    (applyOutputLimits tk s mT? mL?).text =
      (charPass mL? (tokenPass tk mT? (charPass mL? (tokenPass tk mT?
        (initState s))))).text := rfl

theorem applyOutputLimits_wasTruncated_eq (tk : Tokenizer) (s : Str) (mT? mL? : Option Int) :
    (applyOutputLimits tk s mT? mL?).wasTruncated =
      (charPass mL? (tokenPass tk mT? (charPass mL? (tokenPass tk mT?
        (initState s))))).wasTruncated := rfl

/-- Char budget: whenever a positive `maxLength` is supplied, the text
returned by `applyOutputLimits` fits in it (no tokenizer assumptions). -/
theorem applyOutputLimits_length_le (tk : Tokenizer) (s : Str) (mT? : Option Int)
    {mL : Int} (h : 0 < mL) :
    (((applyOutputLimits tk s mT? (some mL)).text.length : Nat) : Int) ≤ mL := by
  rw [applyOutputLimits_text]
  exact charPass_length_le h _

/-- Token budget: with a prefix/reencode-stable tokenizer and a positive
`maxTokens`, the text returned by `applyOutputLimits` fits in the token
budget. -/
theorem applyOutputLimits_tokens_le {tk : Tokenizer} (hA : tk.ReencodeStable)
    (hB : tk.PrefixStable) (s : Str) {mT : Int} (h : 0 < mT) (mL? : Option Int) :
    ((countTokens tk (applyOutputLimits tk s (some mT) mL?).text : Nat) : Int) ≤ mT := by
  rw [applyOutputLimits_text]
  rcases mL? with _ | mL
  · exact tokenPass_tokens_le hA h _
  · by_cases hmL : 0 < mL
    · -- the final char pass cannot fire: the second token pass only shortens
      -- the (already clamped) text
      have h3 : ((tokenPass tk (some mT) (charPass (some mL) (tokenPass tk (some mT)
          (initState s)))).text.length : Int) ≤ mL := by
        calc ((tokenPass tk (some mT) (charPass (some mL) (tokenPass tk (some mT)
            (initState s)))).text.length : Int)
            ≤ ((charPass (some mL) (tokenPass tk (some mT)
              (initState s))).text.length : Int) := by
              exact_mod_cast tokenPass_length_le hB _ _
          _ ≤ mL := charPass_length_le hmL _
      rw [charPass_no_fire h3]
      exact tokenPass_tokens_le hA h _
    · have hid : ∀ st : LimState, charPass (some mL) st = st := by
        intro st
        simp only [charPass]
        rw [if_neg]
        push_neg
        intro hc
        omega
      rw [hid, hid]
      exact tokenPass_tokens_le hA h _

/-- Monotonicity: `applyOutputLimits` never lengthens the text. -/
theorem applyOutputLimits_length_le_self {tk : Tokenizer} (hB : tk.PrefixStable)
    (s : Str) (mT? mL? : Option Int) :
    (applyOutputLimits tk s mT? mL?).text.length ≤ s.length := by
  rw [applyOutputLimits_text]
  calc (charPass mL? (tokenPass tk mT? (charPass mL? (tokenPass tk mT?
        (initState s))))).text.length
      ≤ (tokenPass tk mT? (charPass mL? (tokenPass tk mT?
        (initState s)))).text.length := charPass_length_le_self _ _
    _ ≤ (charPass mL? (tokenPass tk mT?
        (initState s))).text.length := tokenPass_length_le hB _ _
    _ ≤ (tokenPass tk mT?
        (initState s)).text.length := charPass_length_le_self _ _
    _ ≤ s.length := tokenPass_length_le hB _ _

/-- If no truncation was reported, the text is unchanged. -/
theorem applyOutputLimits_not_truncated {tk : Tokenizer} {s : Str} {mT? mL? : Option Int}
    (h : (applyOutputLimits tk s mT? mL?).wasTruncated = false) :
    (applyOutputLimits tk s mT? mL?).text = s := by
  rw [applyOutputLimits_wasTruncated_eq] at h
  rw [applyOutputLimits_text]
  obtain ⟨e4, h3⟩ := charPass_not_truncated h
  obtain ⟨e3, h2⟩ := tokenPass_not_truncated h3
  obtain ⟨e2, h1⟩ := charPass_not_truncated h2
  obtain ⟨e1, _⟩ := tokenPass_not_truncated h1
  rw [e4, e3, e2, e1]
  rfl

/-- If truncation was reported (with positive limits), the text became
strictly shorter. -/
theorem applyOutputLimits_truncated_lt {tk : Tokenizer} (hA : tk.ReencodeStable)
    (hB : tk.PrefixStable) {s : Str} {mT mL : Int} (hmT : 0 < mT) (hmL : 0 < mL)
    (h : (applyOutputLimits tk s (some mT) (some mL)).wasTruncated = true) :
    (applyOutputLimits tk s (some mT) (some mL)).text.length < s.length := by
  rw [applyOutputLimits_wasTruncated_eq] at h
  rw [applyOutputLimits_text]
  by_cases hw : (applyOutputLimits tk s (some mT) (some mL)).wasTruncated = false
  · rw [applyOutputLimits_wasTruncated_eq] at hw
    rw [hw] at h
    exact absurd h (by simp)
  -- find the first pass that fired; every pass where the guard holds
  -- strictly shrinks, and the rest never lengthen
  set st0 : LimState := initState s with hst0
  by_cases g1 : mT < (countTokens tk st0.text : Int)
  · have hlt : (tokenPass tk (some mT) st0).text.length < s.length :=
      tokenPass_length_lt hA hB hmT g1
    calc (charPass (some mL) (tokenPass tk (some mT) (charPass (some mL)
          (tokenPass tk (some mT) st0)))).text.length
        ≤ (tokenPass tk (some mT) (charPass (some mL)
          (tokenPass tk (some mT) st0))).text.length := charPass_length_le_self _ _
      _ ≤ (charPass (some mL) (tokenPass tk (some mT) st0)).text.length :=
          tokenPass_length_le hB _ _
      _ ≤ (tokenPass tk (some mT) st0).text.length := charPass_length_le_self _ _
      _ < s.length := hlt
  · have e1 : tokenPass tk (some mT) st0 = st0 := by
      simp only [tokenPass]
      rw [if_neg]
      push_neg
      intro _
      omega
    rw [e1] at h ⊢
    by_cases g2 : mL < (st0.text.length : Int)
    · have hlt : (charPass (some mL) st0).text.length < s.length :=
        charPass_length_lt hmL g2
      calc (charPass (some mL) (tokenPass tk (some mT)
            (charPass (some mL) st0))).text.length
          ≤ (tokenPass tk (some mT) (charPass (some mL) st0)).text.length :=
            charPass_length_le_self _ _
        _ ≤ (charPass (some mL) st0).text.length := tokenPass_length_le hB _ _
        _ < s.length := hlt
    · have e2 : charPass (some mL) st0 = st0 := charPass_no_fire (by omega)
      rw [e2] at h ⊢
      by_cases g3 : mT < (countTokens tk st0.text : Int)
      · omega
      · have e3 : tokenPass tk (some mT) st0 = st0 := e1
        rw [e3] at h ⊢
        by_cases g4 : mL < (st0.text.length : Int)
        · omega
        · have e4 : charPass (some mL) st0 = st0 := e2
          rw [e4, hst0] at h
          simp [initState] at h

/-- C4: for every input string and positive `maxTokens` and `maxLength`,
`applyOutputLimits` interleaves token truncation and character clamping so
that its returned text satisfies both `countTokens(returned) ≤ maxTokens`
and `returned.length ≤ maxLength` (for a prefix/reencode-stable tokenizer). -/
theorem C4_applyOutputLimits_enforces_both_budgets {tk : Tokenizer}
    (hA : tk.ReencodeStable) (hB : tk.PrefixStable) (text : Str) {mT mL : Int}
    (hmT : 0 < mT) (hmL : 0 < mL) :
    ((countTokens tk (applyOutputLimits tk text (some mT) (some mL)).text : Nat) : Int) ≤ mT ∧
    (((applyOutputLimits tk text (some mT) (some mL)).text.length : Nat) : Int) ≤ mL :=
  ⟨applyOutputLimits_tokens_le hA hB text hmT _, applyOutputLimits_length_le tk text _ hmL⟩

/-- Witness for C4 at a concrete over-budget input. -/
theorem C4_applyOutputLimits_witness :
    charTok.ReencodeStable ∧ charTok.PrefixStable ∧ (0 : Int) < 4 ∧ (0 : Int) < 6 ∧
    ((countTokens charTok
        (applyOutputLimits charTok (strL ("hello world, this overflows"))
          (some 4) (some 6)).text : Nat) : Int) ≤ 4 ∧
    (((applyOutputLimits charTok (strL ("hello world, this overflows"))
        (some 4) (some 6)).text.length : Nat) : Int) ≤ 6 :=
  ⟨charTok_reencodeStable, charTok_prefixStable, by norm_num, by norm_num,
   (C4_applyOutputLimits_enforces_both_budgets charTok_reencodeStable charTok_prefixStable
     (strL ("hello world, this overflows")) (by norm_num) (by norm_num)).1,
   (C4_applyOutputLimits_enforces_both_budgets charTok_reencodeStable charTok_prefixStable
     (strL ("hello world, this overflows")) (by norm_num) (by norm_num)).2⟩

/-- C10: implicit postcondition of `clampToCharLimit`: for `maxLength ≥ 0`
the result has length at most `maxLength`, for `maxLength ≤ 0` the result
is the empty string, and with `maxLength` omitted the (normalized) input is
returned unchanged. -/
theorem C10_clampToCharLimit_postcondition (text : Str) :
    (∀ n : Int, 0 ≤ n → (((clampToCharLimit text (some n)).length : Nat) : Int) ≤ n) ∧
    (∀ n : Int, n ≤ 0 → clampToCharLimit text (some n) = []) ∧
    clampToCharLimit text none = text :=
  ⟨fun _ hn => clampToCharLimit_length_le text hn,
   fun _ hn => clampToCharLimit_nonpos text hn,
   clampToCharLimit_none text⟩

/-- Witness for C10 at concrete inputs. -/
theorem C10_clampToCharLimit_witness :
    ((0 : Int) ≤ 5 ∧
      (((clampToCharLimit (strL ("hello world")) (some 5)).length : Nat) : Int) ≤ 5) ∧
    ((-2 : Int) ≤ 0 ∧ clampToCharLimit (strL ("hello world")) (some (-2)) = []) ∧
    clampToCharLimit (strL ("hello world")) none = strL ("hello world") :=
  ⟨⟨by norm_num, (C10_clampToCharLimit_postcondition (strL ("hello world"))).1 5 (by norm_num)⟩,
   ⟨by norm_num, (C10_clampToCharLimit_postcondition (strL ("hello world"))).2.1 (-2)
      (by norm_num)⟩,
   (C10_clampToCharLimit_postcondition (strL ("hello world"))).2.2⟩

/-! ## Data model (`lib/types.ts`) -/

inductive Platform where
  | twitter
  | linkedin
  | instagram
  deriving DecidableEq

structure VariantMetadata where
  length : Nat
  tokenLength : Option Nat := none
  sentiment : Option Str := none
  hookType : Option Str := none
  wasTruncated : Option Bool := none
  originalLength : Option Nat := none
  originalContent : Option Str := none
  overLimit : Option Int := none
  overTokenLimit : Option Int := none
  deriving DecidableEq

structure ContentVariant where
  id : Str
  content : Str
  hook : Option Str := none
  body : Str
  cta : Option Str := none
  hashtags : List Str := []
  metadata : VariantMetadata
  deriving DecidableEq

structure RequestOptions where
  variants : Option Int := none
  maxLength : Option Int := none
  maxTokens : Option Int := none
  includeHashtags : Option Bool := none
  includeEmojis : Option Bool := none
  deriving DecidableEq

structure ContentRequest where
  type : Str
  input : Str
  personaId : Str
  platform : Platform
  options : RequestOptions
  deriving DecidableEq

structure Persona where
  id : Str
  name : Str := []
  tone : List Str := []
  cadence : Str := []
  donts : List Str := []
  hookPatterns : List Str := []
  ctaStyle : Str := []
  deriving DecidableEq

structure ResultMetadata where
  personaUsed : Str
  processingTime : Int
  model : Option Str := none
  deriving DecidableEq

structure GenerationResult where
  success : Bool
  variants : List ContentVariant
  error : Option Str
  metadata : ResultMetadata
  deriving DecidableEq

/-! ## Models of the regex operations used by the sanitizer and validator

Each scanner is fuelled with the input length for kernel reducibility; the
fuel is always sufficient because every step consumes at least one
character. -/

/-- Global replace of `(?:^|\s)#[^\s#]+` (hashtag stripping), scanning
positions after the start of the string: only matches where a whitespace
character precedes `#`. The match is replaced by `' '` when it starts with
a space and by `''` otherwise. -/
def stripHashtagsBodyF : Nat → Str → Str
  | 0, s => s
  | _ + 1, [] => []
  | fuel + 1, c :: rest =>
    if isWs c then
      match rest with
      | d1 :: d :: r2 =>
        if d1 = '#' && isTokChar d then
          (if c = ' ' then [' '] else []) ++ stripHashtagsBodyF fuel (r2.dropWhile isTokChar)
        else c :: stripHashtagsBodyF fuel rest
      | _ => c :: stripHashtagsBodyF fuel rest
    else c :: stripHashtagsBodyF fuel rest

def stripHashtagsBody (s : Str) : Str := stripHashtagsBodyF s.length s

/-- Global replace of `(?:^|\s)#[^\s#]+` including the start-of-string
alternative. -/
def stripHashtags (s : Str) : Str :=
  match s with
  | d1 :: d :: r2 =>
    if d1 = '#' && isTokChar d then stripHashtagsBody (r2.dropWhile isTokChar)
    else stripHashtagsBody (d1 :: d :: r2)
  | s => stripHashtagsBody s

/-- Global replace of `\s{2,}` by a single space (runs of two or more
whitespace characters collapse; a single whitespace character is kept
as-is). -/
def collapseWsF : Nat → Str → Str
  | 0, s => s
  | _ + 1, [] => []
  | fuel + 1, c :: rest =>
    if isWs c then
      match rest with
      | d :: _ =>
        if isWs d then ' ' :: collapseWsF fuel (rest.dropWhile isWs)
        else c :: collapseWsF fuel rest
      | [] => [c]
    else c :: collapseWsF fuel rest

def collapseWs (s : Str) : Str := collapseWsF s.length s

/-- Global match of `#[^\s#]+` (hashtag extraction). -/
def extractHashtagsF : Nat → Str → List Str
  | 0, _ => []
  | _ + 1, [] => []
  | fuel + 1, c :: rest =>
    if c = '#' then
      match rest with
      | d :: r2 =>
        if isTokChar d then
          ('#' :: d :: r2.takeWhile isTokChar) :: extractHashtagsF fuel (r2.dropWhile isTokChar)
        else extractHashtagsF fuel rest
      | [] => []
    else extractHashtagsF fuel rest

def extractHashtags (s : Str) : List Str := extractHashtagsF s.length s

/-- Modelled from the spec: the Unicode `Extended_Pictographic` class used
by `/\p{Extended_Pictographic}/gu` (the full class is defined by the
Unicode data files, external to the repository; the main emoji blocks are
modelled). -/
def isPictographic (c : Char) : Bool :=
  (0x1F300 ≤ c.toNat && c.toNat ≤ 0x1F5FF) ||
  (0x1F600 ≤ c.toNat && c.toNat ≤ 0x1F64F) ||
  (0x1F680 ≤ c.toNat && c.toNat ≤ 0x1F6FF) ||
  (0x1F900 ≤ c.toNat && c.toNat ≤ 0x1F9FF) ||
  (0x1FA70 ≤ c.toNat && c.toNat ≤ 0x1FAFF) ||
  (0x2600 ≤ c.toNat && c.toNat ≤ 0x27BF)

/-- Global replace of `\p{Extended_Pictographic}` by the empty string. -/
def stripEmoji (s : Str) : Str := s.filter (fun c => !isPictographic c)

/-- `true` iff the string contains a `#token` substring (`#` immediately
followed by a non-whitespace, non-`#` character). -/
def containsHashtagToken : Str → Bool
  | [] => false
  | [_] => false
  | c :: d :: rest => (c = '#' && isTokChar d) || containsHashtagToken (d :: rest)

/-! ## `persona-engine.ts` -/

/-- The per-platform default character limits. -/
def platformCharDefault : Platform → Int
  | .twitter => 280
  | .linkedin => 3000
  | .instagram => 2200

/-- `getPlatformMaxLength` (persona-engine.ts): a falsy (absent or zero)
override falls back to the platform default. -/
def getPlatformMaxLength (platform : Platform) (override : Option Int) : Int :=
  match override with
  | some o => if o = 0 then platformCharDefault platform else o
  | none => platformCharDefault platform

/-- The character limit `validateOutput` resolves for a request. -/
def resolvedMaxLength (req : ContentRequest) : Int :=
  getPlatformMaxLength req.platform req.options.maxLength

/-- The token limit `validateOutput` resolves for a request
(`request.options.maxTokens ?? Math.ceil(maxLength / approxCharsPerToken())`). -/
def resolvedMaxTokens (req : ContentRequest) : Int :=
  req.options.maxTokens.getD (ceilDiv4 (resolvedMaxLength req))

/-- The hashtag branch of `validateOutput`'s per-variant loop
(persona-engine.ts lines 187–200): when hashtags are disallowed, strip
them and clear the list; otherwise (re-)extract them from the content,
keeping the previous list when nothing is found. -/
def hashtagPhase (req : ContentRequest) (content1 : Str) (existing : List Str) :
    Str × List Str :=
  if req.options.includeHashtags.getD false = false then
    (trim (collapseWs (stripHashtags content1)), [])
  else
    let extracted := extractHashtags content1
    (content1,
     if extracted.isEmpty then existing else dedupFirst (extracted.map trim))

/-- The emoji branch of `validateOutput`'s per-variant loop
(persona-engine.ts lines 202–204). -/
def emojiPhase (req : ContentRequest) (c : Str) : Str :=
  if req.options.includeEmojis.getD false = false then trim (collapseWs (stripEmoji c))
  else c

/-- The metadata updates of `validateOutput`'s per-variant loop
(persona-engine.ts lines 206–227). -/
def metadataPhase (tk : Tokenizer) (limits : LimitEnforcementResult)
    (originalContent content3 : Str) (md0 : VariantMetadata) : VariantMetadata :=
  let md1 := { md0 with length := content3.length,
                        tokenLength := some (countTokens tk content3) }
  let md2 := if 0 < limits.charOverflow then
      { md1 with overLimit := some (max (md1.overLimit.getD 0) limits.charOverflow) }
    else md1
  let md3 := if 0 < limits.tokenOverflow then
      { md2 with overTokenLimit := some (max (md2.overTokenLimit.getD 0) limits.tokenOverflow) }
    else md2
  if limits.wasTruncated then
    { md3 with wasTruncated := some true,
               originalLength := some (md3.originalLength.getD originalContent.length),
               originalContent := some (md3.originalContent.getD originalContent) }
  else md3

/-- The body of `validateOutput`'s per-variant loop (persona-engine.ts
lines 178–235): limit enforcement, hashtag policy, emoji policy, and
metadata updates. -/
def processVariant (tk : Tokenizer) (req : ContentRequest) (v : ContentVariant) :
    ContentVariant :=
  let maxLength := resolvedMaxLength req
  let maxTokens := resolvedMaxTokens req
  let originalContent := v.content
  let limits := applyOutputLimits tk originalContent (some maxTokens) (some maxLength)
  let hp := hashtagPhase req limits.text v.hashtags
  let content3 := emojiPhase req hp.1
  { v with content := content3, hashtags := hp.2,
           metadata := metadataPhase tk limits originalContent content3 v.metadata }

/-- The rejection message for a variant whose content became empty after
enforcing limits. -/
def emptyContentMsg (id : Str) : Str :=
  strL ("Variant ") ++ id ++ strL (" was truncated to empty content after enforcing limits")

/-- `validateOutput` (persona-engine.ts, current version): enforce limits
per variant, drop variants whose content became empty, join the recorded
errors. -/
def validateOutput (tk : Tokenizer) (persona : Persona) (variants : List ContentVariant)
    (req : ContentRequest) (now : Int) : GenerationResult :=
  let processed := variants.map (processVariant tk req)
  let filteredVariants := processed.filter (fun v => !(trim v.content).isEmpty)
  let errors := processed.filterMap
    (fun v => if (trim v.content).isEmpty then some (emptyContentMsg v.id) else none)
  { success := !filteredVariants.isEmpty,
    variants := filteredVariants,
    error := if errors.isEmpty then none else some (joinSep (strL ("; ")) errors),
    metadata := { personaUsed := persona.id, processingTime := now } }

/-! ### Length monotonicity of the sanitizing replaces -/

theorem stripHashtagsBodyF_length_le :
    ∀ (fuel : Nat) (s : Str), (stripHashtagsBodyF fuel s).length ≤ s.length := by
  intro fuel
  induction fuel with
  | zero => intro s; exact le_rfl
  | succ fuel ih =>
    intro s
    rcases s with _ | ⟨c, rest⟩
    · simp [stripHashtagsBodyF]
    · have hdrop := fun (l : Str) => dropWhile_length_le isTokChar l
      rcases rest with _ | ⟨d1, _ | ⟨d, r2⟩⟩ <;> simp only [stripHashtagsBodyF] <;>
        split_ifs <;>
        simp only [List.length_append, List.length_cons, List.length_nil] <;>
        first
          | (have h1 := ih []; simp only [List.length_nil] at h1; omega)
          | (have h1 := ih [d1]; simp only [List.length_cons, List.length_nil] at h1; omega)
          | (have h1 := ih (r2.dropWhile isTokChar)
             have h2 := hdrop r2
             omega)
          | (have h1 := ih (d1 :: d :: r2)
             simp only [List.length_cons] at h1
             omega)

theorem stripHashtags_length_le (s : Str) : (stripHashtags s).length ≤ s.length := by
  match s with
  | [] => exact stripHashtagsBodyF_length_le _ _
  | [c] => exact stripHashtagsBodyF_length_le _ _
  | d1 :: d :: r2 =>
    simp only [stripHashtags]
    split_ifs with hmatch
    · have h1 := stripHashtagsBodyF_length_le (r2.dropWhile isTokChar).length
        (r2.dropWhile isTokChar)
      have h2 := dropWhile_length_le isTokChar r2
      simp only [List.length_cons]
      calc (stripHashtagsBody (r2.dropWhile isTokChar)).length
          ≤ (r2.dropWhile isTokChar).length := stripHashtagsBodyF_length_le _ _
        _ ≤ r2.length := h2
        _ ≤ r2.length + 1 + 1 := by omega
    · exact stripHashtagsBodyF_length_le _ _

theorem collapseWsF_length_le :
    ∀ (fuel : Nat) (s : Str), (collapseWsF fuel s).length ≤ s.length := by
  intro fuel
  induction fuel with
  | zero => intro s; exact le_rfl
  | succ fuel ih =>
    intro s
    match s with
    | [] => simp [collapseWsF]
    | c :: rest =>
      simp only [collapseWsF]
      split_ifs with hws
      · match rest with
        | [] => simp
        | d :: r2 =>
          simp only
          split_ifs with hwd
          · have h1 := ih ((d :: r2).dropWhile isWs)
            have h2 := dropWhile_length_le isWs (d :: r2)
            simp only [List.length_cons] at h2 ⊢
            omega
          · have h1 := ih (d :: r2)
            simp only [List.length_cons] at h1 ⊢
            omega
      · have h1 := ih rest
        simp only [List.length_cons]
        omega

theorem collapseWs_length_le (s : Str) : (collapseWs s).length ≤ s.length :=
  collapseWsF_length_le _ _

theorem stripEmoji_length_le (s : Str) : (stripEmoji s).length ≤ s.length :=
  List.length_filter_le _ _

/-- The hashtag-stripping cleanup never lengthens the text. -/
theorem hashtagCleanup_length_le (s : Str) :
    (trim (collapseWs (stripHashtags s))).length ≤ s.length :=
  le_trans (trim_length_le _) (le_trans (collapseWs_length_le _) (stripHashtags_length_le s))

/-- The emoji-stripping cleanup never lengthens the text. -/
theorem emojiCleanup_length_le (s : Str) :
    (trim (collapseWs (stripEmoji s))).length ≤ s.length :=
  le_trans (trim_length_le _) (le_trans (collapseWs_length_le _) (stripEmoji_length_le s))

/-! ### Bounds for `processVariant` / `validateOutput` -/

/-- The data-model invariant of §3: request limits are positive when
present. -/
def PositiveLimits (o : RequestOptions) : Prop :=
  (∀ x, o.maxLength = some x → 0 < x) ∧ (∀ x, o.maxTokens = some x → 0 < x)

theorem platformCharDefault_pos (p : Platform) : 0 < platformCharDefault p := by
  cases p <;> norm_num [platformCharDefault]

theorem resolvedMaxLength_pos {req : ContentRequest} (h : PositiveLimits req.options) :
    0 < resolvedMaxLength req := by
  unfold resolvedMaxLength getPlatformMaxLength
  rcases hml : req.options.maxLength with _ | x
  · exact platformCharDefault_pos _
  · have := h.1 x hml
    simp only
    split_ifs with hz
    · exact platformCharDefault_pos _
    · exact this

theorem ceilDiv4_pos {x : Int} (h : 0 < x) : 0 < ceilDiv4 x := by
  unfold ceilDiv4
  omega

theorem resolvedMaxTokens_pos {req : ContentRequest} (h : PositiveLimits req.options) :
    0 < resolvedMaxTokens req := by
  unfold resolvedMaxTokens
  rcases hmt : req.options.maxTokens with _ | x
  · exact ceilDiv4_pos (resolvedMaxLength_pos h)
  · exact h.2 x hmt

theorem hashtagPhase_fst_length_le (req : ContentRequest) (c : Str) (l : List Str) :
    (hashtagPhase req c l).1.length ≤ c.length := by
  simp only [hashtagPhase]
  split_ifs <;> dsimp only <;>
    first
      | exact le_rfl
      | exact hashtagCleanup_length_le _

theorem emojiPhase_length_le (req : ContentRequest) (c : Str) :
    (emojiPhase req c).length ≤ c.length := by
  simp only [emojiPhase]
  split_ifs <;>
    first
      | exact le_rfl
      | exact emojiCleanup_length_le _

/-- The content of a processed variant, definitionally. -/
theorem processVariant_content (tk : Tokenizer) (req : ContentRequest) (v : ContentVariant) :
    (processVariant tk req v).content =
      emojiPhase req (hashtagPhase req
        (applyOutputLimits tk v.content (some (resolvedMaxTokens req))
          (some (resolvedMaxLength req))).text v.hashtags).1 := rfl

/-- The hashtag list of a processed variant, definitionally. -/
theorem processVariant_hashtags (tk : Tokenizer) (req : ContentRequest) (v : ContentVariant) :
    (processVariant tk req v).hashtags =
      (hashtagPhase req
        (applyOutputLimits tk v.content (some (resolvedMaxTokens req))
          (some (resolvedMaxLength req))).text v.hashtags).2 := rfl

/-- The content of a processed variant is never longer than the
limit-enforced text it was derived from. -/
theorem processVariant_content_le_limit (tk : Tokenizer) (req : ContentRequest)
    (v : ContentVariant) :
    (processVariant tk req v).content.length ≤
      (applyOutputLimits tk v.content (some (resolvedMaxTokens req))
        (some (resolvedMaxLength req))).text.length := by
  rw [processVariant_content]
  exact le_trans (emojiPhase_length_le _ _) (hashtagPhase_fst_length_le _ _ _)

/-- Char half of the budget invariant: `processVariant` output always fits
the resolved character limit. -/
theorem processVariant_length_le (tk : Tokenizer) (req : ContentRequest)
    (v : ContentVariant) (hmL : 0 < resolvedMaxLength req) :
    (((processVariant tk req v).content.length : Nat) : Int) ≤ resolvedMaxLength req := by
  have h := processVariant_content_le_limit tk req v
  have hlim := applyOutputLimits_length_le tk v.content (some (resolvedMaxTokens req)) hmL
  have h' : (((processVariant tk req v).content.length : Nat) : Int) ≤
      ((applyOutputLimits tk v.content (some (resolvedMaxTokens req))
        (some (resolvedMaxLength req))).text.length : Int) := by exact_mod_cast h
  exact le_trans h' hlim

/-- Token half of the budget invariant, in the case where neither hashtag
stripping nor emoji stripping applies (both features enabled): the content
is exactly the limit-enforced text, which fits the token budget. -/
theorem processVariant_tokens_le {tk : Tokenizer} (hA : tk.ReencodeStable)
    (hB : tk.PrefixStable) (req : ContentRequest) (v : ContentVariant)
    (hmT : 0 < resolvedMaxTokens req)
    (hH : req.options.includeHashtags.getD false = true)
    (hE : req.options.includeEmojis.getD false = true) :
    ((countTokens tk (processVariant tk req v).content : Nat) : Int) ≤
      resolvedMaxTokens req := by
  rw [processVariant_content]
  simp only [emojiPhase, hashtagPhase, hH, hE]
  norm_num
  exact applyOutputLimits_tokens_le hA hB _ hmT _

/-- Every variant of a `validateOutput` result is a processed input
variant. -/
theorem validateOutput_mem_variants {tk : Tokenizer} {p : Persona}
    {vs : List ContentVariant} {req : ContentRequest} {now : Int} {v : ContentVariant}
    (hv : v ∈ (validateOutput tk p vs req now).variants) :
    ∃ v₀ ∈ vs, v = processVariant tk req v₀ := by
  simp only [validateOutput] at hv
  have hmem := (List.mem_filter.mp hv).1
  obtain ⟨v₀, hv₀, he⟩ := List.mem_map.mp hmem
  exact ⟨v₀, hv₀, he.symm⟩

/-- C1 (amended): for every request with positive limits, every variant of
the returned result fits the character budget; the token budget is
guaranteed for the limit-enforced text, hence for the final content
whenever no post-limit hashtag/emoji stripping applies
(`includeHashtags = true` and `includeEmojis = true`). -/
theorem C1_amended_budget_invariant {tk : Tokenizer} (hA : tk.ReencodeStable)
    (hB : tk.PrefixStable) (persona : Persona) (vs : List ContentVariant)
    (req : ContentRequest) (now : Int) (hpos : PositiveLimits req.options) :
    ∀ v ∈ (validateOutput tk persona vs req now).variants,
      ((v.content.length : Nat) : Int) ≤ resolvedMaxLength req ∧
      (req.options.includeHashtags.getD false = true →
        req.options.includeEmojis.getD false = true →
        ((countTokens tk v.content : Nat) : Int) ≤ resolvedMaxTokens req) := by
  intro v hv
  obtain ⟨v₀, _, rfl⟩ := validateOutput_mem_variants hv
  exact ⟨processVariant_length_le tk req v₀ (resolvedMaxLength_pos hpos),
    fun hH hE => processVariant_tokens_le hA hB req v₀ (resolvedMaxTokens_pos hpos) hH hE⟩

/-- A persona fixture used in concrete runs. -/
def demoPersona : Persona :=
  { id := strL ("persona-1"), name := strL ("Demo"), tone := [strL ("casual")],
    cadence := strL ("concise"), donts := [strL ("corporate jargon")],
    hookPatterns := [], ctaStyle := strL ("direct") }

/-- Request fixture for the C1 witness: both limits explicit and positive,
hashtags and emojis allowed (no post-limit stripping). -/
def c1WitnessReq : ContentRequest :=
  { type := strL ("brain_dump"), input := strL ("idea"), personaId := strL ("persona-1"),
    platform := .twitter,
    options := { variants := some 1, maxLength := some 10, maxTokens := some 4,
                 includeHashtags := some true, includeEmojis := some true } }

/-- Variant fixture for the C1 witness (over both budgets before
enforcement). -/
def c1WitnessVariant : ContentVariant :=
  { id := strL ("v1"), content := strL ("hello world, this overflows"),
    body := strL ("hello world, this overflows"), metadata := { length := 27 } }

/-- Witness for the amended C1 at a concrete over-budget run. -/
theorem C1_amended_witness :
    charTok.ReencodeStable ∧ charTok.PrefixStable ∧ PositiveLimits c1WitnessReq.options ∧
    (processVariant charTok c1WitnessReq c1WitnessVariant ∈
      (validateOutput charTok demoPersona [c1WitnessVariant] c1WitnessReq 0).variants) ∧
    (((processVariant charTok c1WitnessReq c1WitnessVariant).content.length : Nat) : Int) ≤
      resolvedMaxLength c1WitnessReq ∧
    ((countTokens charTok (processVariant charTok c1WitnessReq c1WitnessVariant).content :
        Nat) : Int) ≤ resolvedMaxTokens c1WitnessReq := by
  have hpos : PositiveLimits c1WitnessReq.options := by
    constructor <;> intro x hx <;> simp [c1WitnessReq] at hx <;> omega
  have hmem : processVariant charTok c1WitnessReq c1WitnessVariant ∈
      (validateOutput charTok demoPersona [c1WitnessVariant] c1WitnessReq 0).variants := by
    decide
  have h := C1_amended_budget_invariant charTok_reencodeStable charTok_prefixStable
    demoPersona [c1WitnessVariant] c1WitnessReq 0 hpos _ hmem
  exact ⟨charTok_reencodeStable, charTok_prefixStable, hpos, hmem, h.1,
    h.2 (by decide) (by decide)⟩

/-! ### C1 counterexample: the token budget is not re-enforced after
hashtag stripping -/

/-- The adversarial input for the C1 counterexample. -/
def badTokTarget : Str := strL ("ab #c")

/-- A prefix/reencode-stable tokenizer under which hashtag stripping
increases the token count: `"ab #c"` is a single token, while ordinary
characters are one token each (shifted into a disjoint id range). -/
def badTok : Tokenizer where
  encode s := if s = badTokTarget then [7] else s.map (fun c => c.toNat + 1000)
  decode l := if l = [7] then badTokTarget else l.map (fun n => Char.ofNat (n - 1000))

theorem badTok_decode_encode_take {s : Str} (hs : s ≠ badTokTarget) (k : Nat) :
    badTok.decode ((badTok.encode s).take k) = s.take k := by
  simp only [badTok, if_neg hs, ← List.map_take]
  rw [if_neg]
  · rw [List.map_map]
    have h : ((fun n => Char.ofNat (n - 1000)) ∘ fun c => c.toNat + 1000) = id := by
      funext c
      simp [Char.ofNat_toNat]
    rw [h, List.map_id]
  · intro hbad
    have h7 : 7 ∈ (s.take k).map (fun c => c.toNat + 1000) := by
      rw [hbad]
      exact List.mem_singleton.mpr rfl
    obtain ⟨c, _, hc⟩ := List.mem_map.mp h7
    omega

theorem badTok_encode_target : badTok.encode badTokTarget = [7] := by decide

theorem badTok_decode_seven : badTok.decode [7] = badTokTarget := by decide

theorem badTok_decode_nil : badTok.decode [] = [] := by decide

theorem badTok_prefixStable : badTok.PrefixStable := by
  intro s k
  by_cases hs : s = badTokTarget
  · subst hs
    rw [badTok_encode_target]
    rcases k with _ | k
    · rw [List.take_zero, badTok_decode_nil]
      exact ⟨badTokTarget, by simp⟩
    · have ht : ([7] : List Nat).take (k + 1) = [7] := by simp
      rw [ht, badTok_decode_seven]
      exact ⟨[], by simp⟩
  · rw [badTok_decode_encode_take hs]
    exact takePrefixOf s k

theorem badTok_reencodeStable : badTok.ReencodeStable := by
  intro s k
  by_cases hs : s = badTokTarget
  · subst hs
    rw [badTok_encode_target]
    rcases k with _ | k
    · rw [List.take_zero, badTok_decode_nil]
      have : badTok.encode [] = [] := by decide
      simp [this]
    · have ht : ([7] : List Nat).take (k + 1) = [7] := by simp
      rw [ht, badTok_decode_seven, badTok_encode_target]
      simp
  · rw [badTok_decode_encode_take hs]
    by_cases ht : s.take k = badTokTarget
    · have hlen5 : badTokTarget.length = 5 := by decide
      have hk : 5 ≤ k := by
        have hcong := congrArg List.length ht
        rw [List.length_take, hlen5] at hcong
        omega
      simp only [badTok, if_pos ht, List.length_singleton]
      omega
    · simp only [badTok, if_neg ht, List.length_map]
      rw [List.length_take]
      exact min_le_left _ _

/-- Request fixture for the C1 counterexample: positive limits
(`maxTokens = 1`), hashtags disallowed (so stripping applies). -/
def c1CounterReq : ContentRequest :=
  { type := strL ("brain_dump"), input := strL ("idea"), personaId := strL ("persona-1"),
    platform := .twitter,
    options := { variants := some 1, maxLength := some 280, maxTokens := some 1,
                 includeHashtags := some false, includeEmojis := some true } }

/-- Variant fixture for the C1 counterexample. -/
def c1CounterVariant : ContentVariant :=
  { id := strL ("v1"), content := badTokTarget, body := badTokTarget,
    metadata := { length := 5 } }

/-- C1 is false as stated: under a prefix/reencode-stable tokenizer and a
request with positive limits (`maxTokens = 1`), the returned variant's
content `"ab"` counts 2 tokens — hashtag stripping runs after limit
enforcement and the token budget is never re-checked. -/
theorem C1_counterexample :
    badTok.ReencodeStable ∧ badTok.PrefixStable ∧ PositiveLimits c1CounterReq.options ∧
    (validateOutput badTok demoPersona [c1CounterVariant] c1CounterReq 0).variants.map
      (fun v => v.content) = [strL ("ab")] ∧
    resolvedMaxTokens c1CounterReq = 1 ∧
    countTokens badTok (strL ("ab")) = 2 := by
  refine ⟨badTok_reencodeStable, badTok_prefixStable, ?_, by decide, by decide, by decide⟩
  constructor <;> intro x hx <;> simp [c1CounterReq] at hx <;> omega

/-! ## The denylist validator

The current `PersonaEngine.validateOutput` (persona-engine.ts) performs no
donts check; the earlier `PersonaEngine` retained in
`packages/database/src/seed.ts` does.  Both are modelled. -/

/-- `checkDontsViolations` (packages/database/src/seed.ts): a dont phrase
is violated when any of its space-separated keywords occurs in the
lower-cased content. -/
def checkDontsViolations (persona : Persona) (content : Str) : List Str :=
  let lowerContent := lowerStr content
  persona.donts.filter (fun dont =>
    (splitSpace (lowerStr dont)).any (fun keyword => containsSub lowerContent keyword))

def intToStr (i : Int) : Str := (toString i).data

/-- The over-length rejection message of the seed-engine `validateOutput`. -/
def exceedsMsg (id : Str) (maxLength : Int) : Str :=
  strL ("Variant ") ++ id ++ strL (" exceeds ") ++ intToStr maxLength ++
    strL (" character limit")

/-- The denylist rejection message of the seed-engine `validateOutput`. -/
def violatesMsg (id : Str) (violations : List Str) : Str :=
  strL ("Variant ") ++ id ++ strL (" violates rules: ") ++ joinSep (strL (", ")) violations

/-- Per-variant outcome of the seed-engine `validateOutput`: length check
first, then the donts check. -/
def seedVariantOutcome (persona : Persona) (maxLength : Int) (v : ContentVariant) :
    Except Str ContentVariant :=
  if maxLength < (v.content.length : Int) then
    .error (exceedsMsg v.id maxLength)
  else
    let violations := checkDontsViolations persona v.content
    if violations.isEmpty then
      .ok { v with metadata := { v.metadata with length := v.content.length } }
    else
      .error (violatesMsg v.id violations)

/-- `validateOutput` of the earlier PersonaEngine
(packages/database/src/seed.ts): drops over-length and donts-violating
variants, joining the rejection reasons. -/
def seedValidateOutput (persona : Persona) (variants : List ContentVariant)
    (req : ContentRequest) (now : Int) : GenerationResult :=
  let maxLength := getPlatformMaxLength req.platform req.options.maxLength
  let outcomes := variants.map (seedVariantOutcome persona maxLength)
  let filteredVariants := outcomes.filterMap Except.toOption
  let errors := outcomes.filterMap
    (fun o => match o with | .error e => some e | .ok _ => none)
  { success := !filteredVariants.isEmpty,
    variants := filteredVariants,
    error := if errors.isEmpty then none else some (joinSep (strL ("; ")) errors),
    metadata := { personaUsed := persona.id, processingTime := now } }

theorem splitSpace_ne_nil (s : Str) : splitSpace s ≠ [] := by
  match s with
  | [] => simp [splitSpace]
  | c :: rest =>
    simp only [splitSpace]
    split_ifs
    · simp
    · have := splitSpace_ne_nil rest
      match h : splitSpace rest with
      | [] => exact absurd h this
      | x :: xs => simp

theorem InfixOf.append_left {p s : Str} (a : Str) (h : InfixOf p s) :
    InfixOf p (a ++ s) := by
  obtain ⟨x, y, rfl⟩ := h
  exact ⟨a ++ x, y, by simp⟩

theorem InfixOf.append_right {p s : Str} (b : Str) (h : InfixOf p s) :
    InfixOf p (s ++ b) := by
  obtain ⟨x, y, rfl⟩ := h
  exact ⟨x, y ++ b, by simp⟩

theorem InfixOf.refl (p : Str) : InfixOf p p := ⟨[], [], by simp⟩

theorem mem_joinSep_infixOf (sep : Str) : ∀ (l : List Str) (x : Str), x ∈ l →
    InfixOf x (joinSep sep l) := by
  intro l
  induction l with
  | nil => intro x hx; exact absurd hx (List.not_mem_nil x)
  | cons y ys ih =>
    intro x hx
    rcases List.mem_cons.mp hx with rfl | hmem
    · match ys with
      | [] => exact InfixOf.refl x
      | z :: zs =>
        show InfixOf x (x ++ sep ++ joinSep sep (z :: zs))
        rw [List.append_assoc]
        exact (InfixOf.refl x).append_right _
    · match ys with
      | [] => exact absurd hmem (List.not_mem_nil x)
      | z :: zs =>
        have hin := ih x hmem
        show InfixOf x (y ++ sep ++ joinSep sep (z :: zs))
        rw [List.append_assoc]
        exact (hin.append_left sep).append_left y

/-- Content fixture for C2 (Scenario A). -/
def c2Content : Str := strL ("Leveraging synergies to unlock corporate jargon excellence")

/-- Variant fixture for C2. -/
def c2Variant : ContentVariant :=
  { id := strL ("v1"), content := c2Content, body := c2Content, metadata := { length := 58 } }

/-- Request fixture for C2. -/
def c2Req : ContentRequest :=
  { type := strL ("brain_dump"), input := strL ("idea"), personaId := strL ("persona-1"),
    platform := .twitter,
    options := { variants := some 1, maxLength := some 280, maxTokens := some 70,
                 includeHashtags := some false, includeEmojis := some false } }

/-- C2 is false on the current engine: `validateOutput` performs no
denylist check, so Scenario A's variant (all words of the dont phrase
"corporate jargon" present) is kept, `success = true` and no violation is
recorded. -/
theorem C2_counterexample :
    demoPersona.donts = [strL ("corporate jargon")] ∧
    containsSub (lowerStr c2Variant.content) (strL ("corporate")) = true ∧
    containsSub (lowerStr c2Variant.content) (strL ("jargon")) = true ∧
    (validateOutput charTok demoPersona [c2Variant] c2Req 0).success = true ∧
    (validateOutput charTok demoPersona [c2Variant] c2Req 0).variants.length = 1 ∧
    (validateOutput charTok demoPersona [c2Variant] c2Req 0).error = none := by
  decide

/-- C2 (amended): in the earlier PersonaEngine retained in
`packages/database/src/seed.ts`, a within-length variant whose lower-cased
content contains all constituent words of some dont phrase (the seed code
already rejects when any word occurs) is excluded from `variants`, the
violation is recorded in the error string, and with it as the only variant
`success = false`. -/
theorem C2_amended_seed_denylist (persona : Persona) (v : ContentVariant)
    (req : ContentRequest) (now : Int) (dont : Str)
    (hd : dont ∈ persona.donts)
    (hall : ∀ w ∈ splitSpace (lowerStr dont), containsSub (lowerStr v.content) w = true)
    (hlen : (v.content.length : Int) ≤ getPlatformMaxLength req.platform req.options.maxLength) :
    (seedValidateOutput persona [v] req now).success = false ∧
    (seedValidateOutput persona [v] req now).variants = [] ∧
    ∃ e, (seedValidateOutput persona [v] req now).error = some e ∧ InfixOf dont e := by
  have hmemviol : dont ∈ checkDontsViolations persona v.content := by
    simp only [checkDontsViolations]
    refine List.mem_filter.mpr ⟨hd, ?_⟩
    obtain ⟨w, ws, hws⟩ := List.exists_cons_of_ne_nil (splitSpace_ne_nil (lowerStr dont))
    refine List.any_eq_true.mpr ⟨w, ?_, ?_⟩
    · rw [hws]; exact List.mem_cons_self w ws
    · exact hall w (by rw [hws]; exact List.mem_cons_self w ws)
  have hne : checkDontsViolations persona v.content ≠ [] :=
    List.ne_nil_of_mem hmemviol
  have hout : seedVariantOutcome persona
      (getPlatformMaxLength req.platform req.options.maxLength) v =
      .error (violatesMsg v.id (checkDontsViolations persona v.content)) := by
    simp only [seedVariantOutcome]
    rw [if_neg (not_lt.mpr hlen), if_neg]
    simp [List.isEmpty_iff, hne]
  refine ⟨?_, ?_, violatesMsg v.id (checkDontsViolations persona v.content), ?_, ?_⟩
  · simp [seedValidateOutput, hout, Except.toOption]
  · simp [seedValidateOutput, hout, Except.toOption]
  · simp [seedValidateOutput, hout, joinSep]
  · show InfixOf dont (strL ("Variant ") ++ v.id ++ strL (" violates rules: ") ++
      joinSep (strL (", ")) (checkDontsViolations persona v.content))
    exact (mem_joinSep_infixOf _ _ _ hmemviol).append_left _

/-- Witness for the amended C2 at the Scenario A input. -/
theorem C2_amended_witness :
    ((strL ("corporate jargon")) ∈ demoPersona.donts) ∧
    (seedValidateOutput demoPersona [c2Variant] c2Req 0).success = false ∧
    (seedValidateOutput demoPersona [c2Variant] c2Req 0).variants = [] ∧
    ∃ e, (seedValidateOutput demoPersona [c2Variant] c2Req 0).error = some e ∧
      InfixOf (strL ("corporate jargon")) e := by
  have h := C2_amended_seed_denylist demoPersona c2Variant c2Req 0
    (strL ("corporate jargon")) (by decide) (by decide) (by decide)
  exact ⟨by decide, h.1, h.2.1, h.2.2⟩

/-! ## `composer-service.ts`: sanitizer and parsing -/

/-- The quote/backtick characters stripped from the ends of a response
(the regex `^['"`]+|['"`]+$`); written via code points. -/
def quoteChars : List Char := [Char.ofNat 39, Char.ofNat 34, Char.ofNat 96]

def isQuoteChar (c : Char) : Bool := quoteChars.contains c

/-- Strip a leading and a trailing run of quote characters. -/
def stripQuotes (s : Str) : Str :=
  ((s.dropWhile isQuoteChar).reverse.dropWhile isQuoteChar).reverse

def isAsciiAlpha (c : Char) : Bool :=
  ('a' ≤ c && c ≤ 'z') || ('A' ≤ c && c ≤ 'Z')

/-- Three backticks. -/
def fence3 : Str := [Char.ofNat 96, Char.ofNat 96, Char.ofNat 96]

/-- Model of the code-fence replace
`^```(?:[a-zA-Z]+)?\s*([\s\S]*?)\s*```$` → `$1`: when the whole string is
wrapped in fences, keep the middle, dropping an optional language tag and
the surrounding whitespace. -/
def stripCodeFence (s : Str) : Str :=
  if 6 ≤ s.length && s.take 3 = fence3 && s.drop (s.length - 3) = fence3 then
    trim (((s.take (s.length - 3)).drop 3).dropWhile isAsciiAlpha)
  else s

/-- JS `\w`. -/
def isWordChar (c : Char) : Bool := c.isAlphanum || c = '_'

/-- The field labels stripped by
`\b(?:Hook|Body|CTA|Copy|Variant)\s*[:\-]\s*` (lower-cased; the match is
case-insensitive). -/
def labelWords : List Str :=
  [strL ("hook"), strL ("body"), strL ("cta"), strL ("copy"), strL ("variant")]

/-- Match `\s*[:\-]\s*` at the start of `s`, returning the rest. -/
def matchColonPart (s : Str) : Option Str :=
  match s.dropWhile isWs with
  | c :: r => if c = ':' || c = '-' then some (r.dropWhile isWs) else none
  | [] => none

/-- Match one label (case-insensitively) followed by `\s*[:\-]\s*`. -/
def matchLabelAfter (lab : Str) (s : Str) : Option Str :=
  if (s.take lab.length).map Char.toLower = lab then matchColonPart (s.drop lab.length)
  else none

def tryLabelList : List Str → Str → Option Str
  | [], _ => none
  | lab :: rest, s =>
    match matchLabelAfter lab s with
    | some r => some r
    | none => tryLabelList rest s

def tryLabel (s : Str) : Option Str := tryLabelList labelWords s

/-- Global replace of `\b(?:Hook|Body|CTA|Copy|Variant)\s*[:\-]\s*` by the
empty string; the boolean argument tracks whether the previous character
was a word character (so `\b` holds exactly when it is `false`). -/
def labelStripF : Nat → Bool → Str → Str
  | 0, _, s => s
  | _ + 1, _, [] => []
  | fuel + 1, prevW, c :: rest =>
    if prevW = false then
      match tryLabel (c :: rest) with
      | some r => labelStripF fuel false r
      | none => c :: labelStripF fuel (isWordChar c) rest
    else c :: labelStripF fuel (isWordChar c) rest

def labelStrip (s : Str) : Str := labelStripF s.length false s

/-- The hallucination cutoff markers of `parseGeneratedContent`. -/
def cutoffMarkers : List Str :=
  [strL ("\nReplies"), strL ("\nReply"), strL ("\n---"), strL ("\n# Replies"),
   strL ("\nAdditional context"), strL ("\nNotes")]

/-- Cut the text at the first (case-insensitive) occurrence of a marker. -/
def cutAtMarker (s : Str) (marker : Str) : Str :=
  match substrIndex (lowerStr s) (lowerStr marker) with
  | some i => trim (s.take i)
  | none => s

def cutMarkers (s : Str) : Str := cutoffMarkers.foldl cutAtMarker s

/-- Largest index `≥ 1` holding `'\n'` (used to model the greedy
backtracking of `\s+\n`). -/
def lastNlPosAux : Str → Nat → Option Nat → Option Nat
  | [], _, acc => acc
  | c :: rest, i, acc =>
    lastNlPosAux rest (i + 1) (if c = '\n' && 1 ≤ i then some i else acc)

def lastNlPos (r : Str) : Option Nat := lastNlPosAux r 0 none

/-- Global replace of `\s+\n` by a single space. -/
def replaceWsNlF : Nat → Str → Str
  | 0, s => s
  | _ + 1, [] => []
  | fuel + 1, c :: rest =>
    if isWs c then
      match lastNlPos (c :: rest.takeWhile isWs) with
      | some idx => ' ' :: replaceWsNlF fuel (rest.drop idx)
      | none => c :: replaceWsNlF fuel rest
    else c :: replaceWsNlF fuel rest

def replaceWsNl (s : Str) : Str := replaceWsNlF s.length s

/-- Global replace of `\n+` by a single space. -/
def collapseNlF : Nat → Str → Str
  | 0, s => s
  | _ + 1, [] => []
  | fuel + 1, c :: rest =>
    if c = '\n' then ' ' :: collapseNlF fuel (rest.dropWhile (· = '\n'))
    else c :: collapseNlF fuel rest

def collapseNl (s : Str) : Str := collapseNlF s.length s

/-- `generateHashtags` (composer-service.ts). -/
def generateHashtags : Platform → List Str
  | .twitter => [strL ("#contentcreation"), strL ("#socialmedia")]
  | .linkedin => [strL ("#productivity"), strL ("#business")]
  | .instagram => [strL ("#creativity"), strL ("#inspiration")]

/-- `getHookType` (composer-service.ts). -/
def getHookType (hook : Str) : Str :=
  if containsSub hook (strL ("opinion")) then strL ("contrarian")
  else if containsSub hook (strL ("learned")) then strL ("insight")
  else if containsSub hook (strL ("What if")) then strL ("question")
  else if containsSub hook (strL ("After")) then strL ("story")
  else strL ("general")

/-- The sanitizing pipeline of `parseGeneratedContent` (composer-service.ts
lines 917–967), returning the sanitized text together with the raw
extracted hashtag list. -/
def sanitizeAndExtract (content : Str) (req : ContentRequest) : Str × List Str :=
  let s0 := trim (normalizeToString content)
  let s1 := stripQuotes s0
  let s2 := trim (stripCodeFence s1)
  let s3 := labelStrip s2
  let s4 := cutMarkers s3
  let includeHashtags := req.options.includeHashtags.getD false
  let includeEmojis := req.options.includeEmojis.getD false
  let s5 := if includeEmojis = false then stripEmoji s4 else s4
  let s6 := collapseNl (replaceWsNl s5)
  let s7 := trim (collapseWs s6)
  let p8 : Str × List Str :=
    if includeHashtags then
      let extracted := extractHashtags s7
      if extracted.isEmpty then
        let generated := generateHashtags req.platform
        if generated.isEmpty then (s7, extracted.map trim)
        else
          let appended := trim (s7 ++ [' '] ++ joinSep [' '] generated)
          let m2 := extractHashtags appended
          (appended, (if m2.isEmpty then generated else m2).map trim)
      else (s7, extracted.map trim)
    else (stripHashtags s7, [])
  let s9 := if includeEmojis = false then stripEmoji p8.1 else p8.1
  let s10 := trim (collapseWs s9)
  (s10, p8.2)

/-- The placeholder substituted for an empty sanitized response
(composer-service.ts lines 969–971). -/
def previewPlaceholder : Str := strL ("Preview unavailable.")

/-- `parseGeneratedContent` (composer-service.ts, current version). -/
def parseGeneratedContent (content : Str) (variantId : Str) (req : ContentRequest) :
    ContentVariant :=
  let p := sanitizeAndExtract content req
  let sanitized := if p.1.isEmpty then previewPlaceholder else p.1
  let includeHashtags := req.options.includeHashtags.getD false
  let hashtags := if includeHashtags && !p.2.isEmpty then dedupFirst (p.2.map trim) else p.2
  let hashtagsForMeta := if includeHashtags then hashtags else []
  { id := variantId, content := sanitized, body := sanitized, hook := some sanitized,
    cta := none, hashtags := hashtagsForMeta,
    metadata := { length := sanitized.length, sentiment := some (strL ("positive")),
                  hookType := some (getHookType sanitized) } }

/-! ## The generation attempt loop (composer-service.ts lines 717–914) -/

/-- The stylistic hint for variant index `i` (composer-service.ts line
740): `i === 0 ? 'Ask a question' : i === 1 ? 'Share an insight' : 'Tell a
story'`. -/
def hookStyle (i : Nat) : Str :=
  if i = 0 then strL ("Ask a question")
  else if i = 1 then strL ("Share an insight")
  else strL ("Tell a story")

/-- The first three styles of §4.3, as listed by the spec. -/
def specHookStyles : List Str :=
  [strL ("Ask a question"), strL ("Share an insight"), strL ("Tell a story")]

/-- The rotation claimed by C9: variant `i` receives style number
`i mod 3`. -/
def specRotatingHookStyle (i : Nat) : Str := specHookStyles.getD (i % 3) []

/-- C9 is false as stated: variant index 3 receives "Tell a story", not
style number `3 mod 3 = 0` ("Ask a question") — the code has no rotation,
every index from 2 on gets the third style. -/
theorem C9_counterexample :
    hookStyle 3 = strL ("Tell a story") ∧
    specRotatingHookStyle 3 = strL ("Ask a question") ∧
    hookStyle 3 ≠ specRotatingHookStyle 3 := by decide

/-- C9 (amended): the stylistic hint agrees with the rotation only for the
first three variant indices; every index `≥ 2` receives "Tell a story". -/
theorem C9_amended_hookStyle :
    hookStyle 0 = specRotatingHookStyle 0 ∧
    hookStyle 1 = specRotatingHookStyle 1 ∧
    hookStyle 2 = specRotatingHookStyle 2 ∧
    (∀ i : Nat, 2 ≤ i → hookStyle i = strL ("Tell a story")) := by
  refine ⟨by decide, by decide, by decide, ?_⟩
  intro i hi
  unfold hookStyle
  rw [if_neg (by omega), if_neg (by omega)]

/-- Witness for the amended C9 at index 5. -/
theorem C9_amended_witness :
    2 ≤ 5 ∧ hookStyle 5 = strL ("Tell a story") :=
  ⟨by norm_num, C9_amended_hookStyle.2.2.2 5 (by norm_num)⟩

/-- The model identifier used by the direct-Ollama path. -/
def modelName : Str := strL ("gemma3:12b")

/-- The external LLM completion collaborator: variant index and attempt
number to either the response text or a failure message. -/
abbrev Llm := Nat → Nat → Except Str Str

def natToStr (n : Nat) : Str := (toString n).data

/-- The token limit resolved by `generateWithDirectOllama`
(composer-service.ts lines 731–733). -/
def genTokenLimit (req : ContentRequest) : Int :=
  req.options.maxTokens.getD (ceilDiv4 (req.options.maxLength.getD 280))

/-- The char limit resolved by `generateWithDirectOllama`
(composer-service.ts lines 734–735). -/
def genCharLimit (req : ContentRequest) : Int :=
  req.options.maxLength.getD (genTokenLimit req * 4)

/-- Measure a freshly parsed candidate (composer-service.ts lines
814–815). -/
def setMeasured (tk : Tokenizer) (cand : ContentVariant) : ContentVariant :=
  { cand with metadata := { cand.metadata with
      length := cand.content.length
      tokenLength := some (countTokens tk cand.content) } }

/-- The bounded-retry attempt loop for one variant (composer-service.ts
lines 779–838), returning `(acceptedVariant?, lastVariant?)`; an LLM
failure aborts with its message. -/
def genAttempts (tk : Tokenizer) (llm : Llm) (req : ContentRequest) (i : Nat)
    (charLimit tokenLimit : Int) :
    Nat → Nat → Option ContentVariant →
      Except Str (Option ContentVariant × Option ContentVariant)
  | _, 0, last => .ok (none, last)
  | attempt, remaining + 1, _ =>
    match llm i attempt with
    | .error e => .error e
    | .ok resp =>
      let content := trim (normalizeToString resp)
      let candidate := parseGeneratedContent content
        (strL ("variant_") ++ natToStr (i + 1)) req
      let cand := setMeasured tk candidate
      if (cand.metadata.length : Int) ≤ charLimit ∧
          ((cand.metadata.tokenLength.getD 0 : Nat) : Int) ≤ tokenLimit then
        .ok (some cand, some cand)
      else
        genAttempts tk llm req i charLimit tokenLimit (attempt + 1) remaining (some cand)

/-- The fallback clamp applied when every attempt overflowed
(composer-service.ts lines 842–876). -/
def fallbackClamp (tk : Tokenizer) (tokenLimit charLimit : Int)
    (lastVariant : ContentVariant) : ContentVariant :=
  let originalFallbackContent := lastVariant.content
  let fallback := applyOutputLimits tk originalFallbackContent
    (some tokenLimit) (some charLimit)
  let md1 := { lastVariant.metadata with
    length := fallback.text.length
    tokenLength := some fallback.tokens
    wasTruncated := some true
    originalLength := some
      (lastVariant.metadata.originalLength.getD originalFallbackContent.length)
    originalContent := some
      (lastVariant.metadata.originalContent.getD originalFallbackContent) }
  let md2 := if 0 < fallback.charOverflow then
      { md1 with overLimit := some (max (md1.overLimit.getD 0) fallback.charOverflow) }
    else md1
  let md3 := if 0 < fallback.tokenOverflow then
      { md2 with overTokenLimit := some (max (md2.overTokenLimit.getD 0)
          fallback.tokenOverflow) }
    else md2
  { lastVariant with content := fallback.text, metadata := md3 }

/-- The final metadata normalization (composer-service.ts lines 883–891):
re-measure, and clear truncation bookkeeping when `wasTruncated` is
falsy. -/
def finalizeMetadata (tk : Tokenizer) (v : ContentVariant) : ContentVariant :=
  let md1 := { v.metadata with
    length := v.content.length
    tokenLength := some (countTokens tk v.content) }
  let md2 := if md1.wasTruncated.getD false = false then
      { md1 with
        originalLength := none
        originalContent := none
        overLimit := none
        overTokenLimit := none }
    else md1
  { v with metadata := md2 }

/-- One variant of the generation loop: attempts, then fallback clamp,
then metadata finalization. -/
def runVariant (tk : Tokenizer) (llm : Llm) (req : ContentRequest) (i : Nat)
    (charLimit tokenLimit : Int) : Except Str ContentVariant :=
  match genAttempts tk llm req i charLimit tokenLimit 1 4 none with
  | .error e => .error e
  | .ok (acc, last) =>
    match acc with
    | some v => .ok (finalizeMetadata tk v)
    | none =>
      match last with
      | some lv => .ok (finalizeMetadata tk (fallbackClamp tk tokenLimit charLimit lv))
      | none => .error (strL ("Failed to produce a variant within the specified limits."))

/-- The sequential variant loop (composer-service.ts lines 737–895). -/
def runVariantsGo (tk : Tokenizer) (llm : Llm) (req : ContentRequest)
    (charLimit tokenLimit : Int) :
    Nat → Nat → List ContentVariant → Except Str (List ContentVariant)
  | _, 0, acc => .ok acc
  | i, remaining + 1, acc =>
    match runVariant tk llm req i charLimit tokenLimit with
    | .error e => .error e
    | .ok v => runVariantsGo tk llm req charLimit tokenLimit (i + 1) remaining (acc ++ [v])

def runVariants (tk : Tokenizer) (llm : Llm) (req : ContentRequest) :
    Except Str (List ContentVariant) :=
  runVariantsGo tk llm req (genCharLimit req) (genTokenLimit req) 0
    ((req.options.variants.getD 1).toNat) []

/-- `generateWithDirectOllama` (composer-service.ts lines 717–914): run
the variant loop, validate with the persona engine, and stamp the result
metadata; any thrown error yields a failure result with empty variants. -/
def generateWithDirectOllama (tk : Tokenizer) (llm : Llm) (persona : Persona)
    (req : ContentRequest) (now elapsed : Int) : GenerationResult :=
  match runVariants tk llm req with
  | .error e =>
    { success := false, variants := [], error := some e,
      metadata := { personaUsed := req.personaId, processingTime := elapsed } }
  | .ok vs =>
    let result := validateOutput tk persona vs req now
    { result with metadata := { result.metadata with
        processingTime := elapsed
        model := some modelName } }

/-- C7: if any LLM completion call of the batch fails, the whole pipeline
returns `success = false` with the underlying message and an empty
variants list, discarding any variants already accepted. -/
theorem C7_llm_failure_fatal (tk : Tokenizer) (llm : Llm) (persona : Persona)
    (req : ContentRequest) (now elapsed : Int) {e : Str}
    (h : runVariants tk llm req = .error e) :
    generateWithDirectOllama tk llm persona req now elapsed =
      { success := false, variants := [], error := some e,
        metadata := { personaUsed := req.personaId, processingTime := elapsed } } := by
  simp [generateWithDirectOllama, h]

/-- Oracle for the C7 witness: variant 0 succeeds within limits, every
call for variant 1 fails. -/
def c7llm : Llm := fun i _ =>
  if i = 0 then .ok (strL ("short post")) else .error (strL ("boom"))

/-- Request fixture for the C7 witness: two variants. -/
def c7Req : ContentRequest :=
  { type := strL ("brain_dump"), input := strL ("idea"), personaId := strL ("persona-1"),
    platform := .twitter,
    options := { variants := some 2, maxLength := some 280, maxTokens := some 70,
                 includeHashtags := some false, includeEmojis := some true } }

/-- Witness for C7: variant 0 is accepted, variant 1's call fails, and the
batch result is a failure with no variants at all. -/
theorem C7_llm_failure_witness :
    (runVariant charTok c7llm c7Req 0 (genCharLimit c7Req) (genTokenLimit c7Req)).isOk
      = true ∧
    runVariants charTok c7llm c7Req = .error (strL ("boom")) ∧
    generateWithDirectOllama charTok c7llm demoPersona c7Req 0 5 =
      { success := false, variants := [], error := some (strL ("boom")),
        metadata := { personaUsed := c7Req.personaId, processingTime := 5 } } := by
  refine ⟨by decide, ?_, ?_⟩
  · rfl
  · exact C7_llm_failure_fatal charTok c7llm demoPersona c7Req 0 5 rfl

/-! ## C5: hashtag policy -/

/-- Oracle for the C5 counterexample: the model emits a mid-word hashtag. -/
def c5llm : Llm := fun _ _ => .ok (strL ("x#y"))

/-- Request fixture for the C5 counterexample: hashtags disallowed. -/
def c5Req : ContentRequest :=
  { type := strL ("brain_dump"), input := strL ("idea"), personaId := strL ("persona-1"),
    platform := .twitter,
    options := { variants := some 1, maxLength := some 280, maxTokens := some 70,
                 includeHashtags := some false, includeEmojis := some true } }

/-- C5 is false as stated: with `includeHashtags = false` the final
content can still contain a `#token` substring — the stripping regex
`(?:^|\s)#[^\s#]+` only removes hashtags preceded by whitespace or the
start of the string, so `"x#y"` survives the whole pipeline. -/
theorem C5_counterexample :
    c5Req.options.includeHashtags = some false ∧
    (generateWithDirectOllama charTok c5llm demoPersona c5Req 0 0).success = true ∧
    (generateWithDirectOllama charTok c5llm demoPersona c5Req 0 0).variants.map
      (fun v => v.content) = [strL ("x#y")] ∧
    containsHashtagToken (strL ("x#y")) = true := by
  refine ⟨rfl, by rfl, by rfl, by decide⟩

theorem dedupFirstF_subset :
    ∀ (fuel : Nat) (l : List Str) (x : Str), x ∈ dedupFirstF fuel l → x ∈ l := by
  intro fuel
  induction fuel with
  | zero => intro l x hx; exact hx
  | succ fuel ih =>
    intro l x hx
    match l with
    | [] => exact hx
    | a :: l =>
      simp only [dedupFirstF] at hx
      rcases List.mem_cons.mp hx with rfl | hmem
      · exact List.mem_cons_self _ _
      · exact List.mem_cons_of_mem _ (List.mem_of_mem_filter (ih _ _ hmem))

theorem dedupFirst_subset {l : List Str} {x : Str} (hx : x ∈ dedupFirst l) : x ∈ l :=
  dedupFirstF_subset _ _ _ hx

theorem extractHashtagsF_infixOf :
    ∀ (fuel : Nat) (s : Str) (t : Str), t ∈ extractHashtagsF fuel s → InfixOf t s := by
  intro fuel
  induction fuel with
  | zero => intro s t ht; exact absurd ht (List.not_mem_nil t)
  | succ fuel ih =>
    intro s t ht
    match s with
    | [] => exact absurd ht (List.not_mem_nil t)
    | c :: rest =>
      simp only [extractHashtagsF] at ht
      by_cases hc : c = '#'
      · rw [if_pos hc] at ht
        match rest with
        | [] => exact absurd ht (List.not_mem_nil t)
        | d :: r2 =>
          dsimp only at ht
          by_cases hd : isTokChar d = true
          · rw [if_pos hd] at ht
            rcases List.mem_cons.mp ht with rfl | hmem
            · refine ⟨[], r2.dropWhile isTokChar, ?_⟩
              subst hc
              simp [List.takeWhile_append_dropWhile]
            · have hinf := ih _ _ hmem
              obtain ⟨x, y, hxy⟩ := hinf
              exact ⟨c :: d :: r2.takeWhile isTokChar ++ x, y, by
                simp only [List.cons_append, List.append_assoc] at hxy ⊢
                rw [hxy]
                simp [List.takeWhile_append_dropWhile]⟩
          · rw [if_neg hd] at ht
            have hinf := ih _ _ ht
            obtain ⟨x, y, hxy⟩ := hinf
            exact ⟨c :: x, y, by simp [hxy]⟩
      · rw [if_neg hc] at ht
        have hinf := ih _ _ ht
        obtain ⟨x, y, hxy⟩ := hinf
        exact ⟨c :: x, y, by simp [hxy]⟩

theorem extractHashtags_infixOf {s t : Str} (ht : t ∈ extractHashtags s) : InfixOf t s :=
  extractHashtagsF_infixOf _ _ _ ht

/-- C5 (amended): when `includeHashtags = false` the final hashtag list is
empty (though the content may retain `#token` substrings not preceded by
whitespace); when `includeHashtags = true` and `includeEmojis = true`, a
variant whose limit-enforced content still contains a hashtag gets its
hashtag list re-extracted from that content, so every entry appears
verbatim in the final content. -/
theorem C5_amended_hashtag_policy (tk : Tokenizer) (persona : Persona)
    (vs : List ContentVariant) (req : ContentRequest) (now : Int) :
    (req.options.includeHashtags.getD false = false →
      ∀ v ∈ (validateOutput tk persona vs req now).variants, v.hashtags = []) ∧
    (req.options.includeHashtags = some true → req.options.includeEmojis = some true →
      ∀ v₀ ∈ vs,
        extractHashtags (applyOutputLimits tk v₀.content (some (resolvedMaxTokens req))
          (some (resolvedMaxLength req))).text ≠ [] →
        ∀ tag ∈ (processVariant tk req v₀).hashtags,
          InfixOf tag (processVariant tk req v₀).content) := by
  constructor
  · intro hflag v hv
    obtain ⟨v₀, _, rfl⟩ := validateOutput_mem_variants hv
    rw [processVariant_hashtags]
    simp [hashtagPhase, hflag]
  · intro hH hE v₀ _ hextract tag htag
    rw [processVariant_hashtags] at htag
    rw [processVariant_content]
    set content1 := (applyOutputLimits tk v₀.content (some (resolvedMaxTokens req))
      (some (resolvedMaxLength req))).text with hc1
    have hHf : req.options.includeHashtags.getD false = true := by rw [hH]; rfl
    have hEf : req.options.includeEmojis.getD false = true := by rw [hE]; rfl
    simp only [hashtagPhase, hHf, emojiPhase, hEf] at htag ⊢
    norm_num at htag ⊢
    rw [if_neg (by simpa [List.isEmpty_iff] using hextract)] at htag
    obtain htag' := dedupFirst_subset htag
    obtain ⟨raw, hraw, rfl⟩ := List.mem_map.mp htag'
    exact (trimInfixOf raw).trans (extractHashtags_infixOf hraw)

/-- Request fixture for the C5 witness: hashtags and emojis allowed. -/
def c5WitReq : ContentRequest :=
  { type := strL ("brain_dump"), input := strL ("idea"), personaId := strL ("persona-1"),
    platform := .twitter,
    options := { variants := some 1, maxLength := some 280, maxTokens := some 70,
                 includeHashtags := some true, includeEmojis := some true } }

/-- Variant fixture for the C5 witness. -/
def c5WitVariant : ContentVariant :=
  { id := strL ("v1"), content := strL ("hi #tag"), body := strL ("hi #tag"),
    metadata := { length := 7 } }

/-- Witness for the amended C5 at concrete runs of both halves. -/
theorem C5_amended_witness :
    (c5Req.options.includeHashtags.getD false = false ∧
      processVariant charTok c5Req c1CounterVariant ∈
        (validateOutput charTok demoPersona [c1CounterVariant] c5Req 0).variants ∧
      (processVariant charTok c5Req c1CounterVariant).hashtags = []) ∧
    (c5WitReq.options.includeHashtags = some true ∧
      c5WitReq.options.includeEmojis = some true ∧
      extractHashtags (applyOutputLimits charTok c5WitVariant.content
        (some (resolvedMaxTokens c5WitReq)) (some (resolvedMaxLength c5WitReq))).text ≠ [] ∧
      strL ("#tag") ∈ (processVariant charTok c5WitReq c5WitVariant).hashtags ∧
      InfixOf (strL ("#tag")) (processVariant charTok c5WitReq c5WitVariant).content) := by
  refine ⟨⟨by decide, by decide, ?_⟩, ⟨rfl, rfl, by decide, by decide, ?_⟩⟩
  · exact (C5_amended_hashtag_policy charTok demoPersona [c1CounterVariant] c5Req 0).1
      (by decide) _ (by decide)
  · exact (C5_amended_hashtag_policy charTok demoPersona [c5WitVariant] c5WitReq 0).2
      rfl rfl c5WitVariant (by decide) (by decide) _ (by decide)

/-! ## C6: empty-after-sanitization handling -/

/-- Oracle for the C6 counterexample: the response is two quote
characters, which sanitize to the empty string. -/
def c6llm : Llm := fun _ _ => .ok [Char.ofNat 39, Char.ofNat 39]

/-- Request fixture for the C6 counterexample. -/
def c6Req : ContentRequest :=
  { type := strL ("brain_dump"), input := strL ("idea"), personaId := strL ("persona-1"),
    platform := .twitter,
    options := { variants := some 1, maxLength := some 280, maxTokens := some 70,
                 includeHashtags := some false, includeEmojis := some true } }

/-- C6 is false as stated: a response that sanitizes to the empty string
is not dropped — `parseGeneratedContent` substitutes the placeholder
`"Preview unavailable."`, the variant reaches the result, `success = true`
and no reason is recorded. -/
theorem C6_counterexample :
    (sanitizeAndExtract [Char.ofNat 39, Char.ofNat 39] c6Req).1 = [] ∧
    (generateWithDirectOllama charTok c6llm demoPersona c6Req 0 0).success = true ∧
    (generateWithDirectOllama charTok c6llm demoPersona c6Req 0 0).variants.map
      (fun v => v.content) = [previewPlaceholder] ∧
    (generateWithDirectOllama charTok c6llm demoPersona c6Req 0 0).error = none := by
  refine ⟨by decide, by rfl, by rfl, by rfl⟩

/-- C6 (amended): a response that sanitizes to empty is replaced by the
placeholder `"Preview unavailable."` and kept; it is only inside
`validateOutput` that a variant whose content becomes empty after limit
enforcement is dropped, with a reason mentioning "truncated to empty
content" recorded in the joined error, and without affecting the sibling
variants. -/
theorem C6_amended_empty_handling :
    (∀ (c id : Str) (req : ContentRequest),
      (sanitizeAndExtract c req).1 = [] →
      (parseGeneratedContent c id req).content = previewPlaceholder) ∧
    (∀ (tk : Tokenizer) (p : Persona) (req : ContentRequest) (now : Int)
      (vs1 vs2 : List ContentVariant) (v : ContentVariant),
      trim (processVariant tk req v).content = [] →
      (validateOutput tk p (vs1 ++ v :: vs2) req now).variants =
        (validateOutput tk p (vs1 ++ vs2) req now).variants ∧
      ∃ e, (validateOutput tk p (vs1 ++ v :: vs2) req now).error = some e ∧
        InfixOf (strL ("truncated to empty content")) e) := by
  constructor
  · intro c id req h
    simp only [parseGeneratedContent, h]
    rfl
  · intro tk p req now vs1 vs2 v h
    have hemp : (trim (processVariant tk req v).content).isEmpty = true := by
      rw [h]; rfl
    constructor
    · simp only [validateOutput, List.map_append, List.map_cons, List.filter_append,
        List.filter_cons, hemp]
      simp
    · have hmsg : emptyContentMsg (processVariant tk req v).id ∈
          ((vs1 ++ v :: vs2).map (processVariant tk req)).filterMap
            (fun w => if (trim w.content).isEmpty then some (emptyContentMsg w.id)
                      else none) := by
        refine List.mem_filterMap.mpr ⟨processVariant tk req v, ?_, ?_⟩
        · rw [List.map_append, List.map_cons]
          exact List.mem_append_right _ (List.mem_cons_self _ _)
        · rw [if_pos hemp]
      refine ⟨joinSep (strL ("; "))
        (((vs1 ++ v :: vs2).map (processVariant tk req)).filterMap
          (fun w => if (trim w.content).isEmpty then some (emptyContentMsg w.id)
                    else none)), ?_, ?_⟩
      · simp only [validateOutput]
        rw [if_neg]
        simp only [List.isEmpty_iff]
        simp only [List.isEmpty_iff] at hmsg
        exact List.ne_nil_of_mem hmsg
      · have hinmsg : InfixOf (strL ("truncated to empty content"))
            (emptyContentMsg (processVariant tk req v).id) := by
          show InfixOf _ (strL ("Variant ") ++ (processVariant tk req v).id ++
            strL (" was truncated to empty content after enforcing limits"))
          have hbase : InfixOf (strL ("truncated to empty content"))
              (strL (" was truncated to empty content after enforcing limits")) :=
            ⟨strL (" was "), strL (" after enforcing limits"), by decide⟩
          rw [List.append_assoc]
          exact (hbase.append_left _).append_left _
        exact hinmsg.trans (mem_joinSep_infixOf _ _ _ hmsg)

/-- Variant fixture for the C6 witness: content that hashtag stripping
erases entirely. -/
def c6DropVariant : ContentVariant :=
  { id := strL ("v2"), content := strL ("#x"), body := strL ("#x"),
    metadata := { length := 2 } }

/-- A sibling variant that survives. -/
def c6OkVariant : ContentVariant :=
  { id := strL ("v1"), content := strL ("all good"), body := strL ("all good"),
    metadata := { length := 8 } }

/-- Witness for the amended C6: the placeholder substitution at a concrete
empty-sanitizing response, and the empty-drop path at a concrete
hashtag-only variant with a surviving sibling. -/
theorem C6_amended_witness :
    ((sanitizeAndExtract [Char.ofNat 39, Char.ofNat 39] c6Req).1 = [] ∧
      (parseGeneratedContent [Char.ofNat 39, Char.ofNat 39] (strL ("v1")) c6Req).content =
        previewPlaceholder) ∧
    (trim (processVariant charTok c6Req c6DropVariant).content = [] ∧
      (validateOutput charTok demoPersona [c6OkVariant, c6DropVariant] c6Req 0).variants =
        (validateOutput charTok demoPersona [c6OkVariant] c6Req 0).variants ∧
      ∃ e, (validateOutput charTok demoPersona [c6OkVariant, c6DropVariant] c6Req 0).error =
        some e ∧ InfixOf (strL ("truncated to empty content")) e) := by
  have h2 := C6_amended_empty_handling.2 charTok demoPersona c6Req 0 [c6OkVariant] []
    c6DropVariant (by decide)
  exact ⟨⟨by decide, C6_amended_empty_handling.1 _ _ _ (by decide)⟩,
    ⟨by decide, h2.1, h2.2⟩⟩

/-! ## C3: the truncation-marking invariant -/

/-- If the input is over either positive limit, `applyOutputLimits`
strictly shortens it. -/
theorem applyOutputLimits_over_lt {tk : Tokenizer} (hA : tk.ReencodeStable)
    (hB : tk.PrefixStable) {s : Str} {mT mL : Int} (hmT : 0 < mT) (hmL : 0 < mL)
    (hover : mL < (s.length : Int) ∨ mT < ((countTokens tk s : Nat) : Int)) :
    (applyOutputLimits tk s (some mT) (some mL)).text.length < s.length := by
  by_cases hw : (applyOutputLimits tk s (some mT) (some mL)).wasTruncated = true
  · exact applyOutputLimits_truncated_lt hA hB hmT hmL hw
  · exfalso
    have heq : (applyOutputLimits tk s (some mT) (some mL)).text = s :=
      applyOutputLimits_not_truncated (Bool.eq_false_iff.mpr hw ▸ rfl)
    rcases hover with h | h
    · have := applyOutputLimits_length_le tk s (some mT) hmL
      rw [heq] at this
      omega
    · have := applyOutputLimits_tokens_le hA hB s hmT (some mL)
      rw [heq] at this
      omega

/-- The shape in which variants leave the generation loop: either marked
truncated with a strictly longer original recorded, or unmarked with no
original recorded. -/
def ShapeInv (v : ContentVariant) : Prop :=
  (v.metadata.wasTruncated = some true ∧
    ∃ oc, v.metadata.originalContent = some oc ∧ v.content.length < oc.length) ∨
  (v.metadata.wasTruncated ≠ some true ∧ v.metadata.originalContent = none)

/-- The measured-candidate shape inside the attempt loop. -/
def CandShape (tk : Tokenizer) (v : ContentVariant) : Prop :=
  v.metadata.wasTruncated = none ∧ v.metadata.originalContent = none ∧
  v.metadata.length = v.content.length ∧
  v.metadata.tokenLength = some (countTokens tk v.content)

theorem parse_setMeasured_candShape (tk : Tokenizer) (c id : Str) (req : ContentRequest) :
    CandShape tk (setMeasured tk (parseGeneratedContent c id req)) :=
  ⟨rfl, rfl, rfl, rfl⟩

theorem finalizeMetadata_content (tk : Tokenizer) (v : ContentVariant) :
    (finalizeMetadata tk v).content = v.content := rfl

theorem finalizeMetadata_wasTruncated (tk : Tokenizer) (v : ContentVariant) :
    (finalizeMetadata tk v).metadata.wasTruncated = v.metadata.wasTruncated := by
  simp only [finalizeMetadata]
  split_ifs <;> rfl

theorem finalizeMetadata_originalContent (tk : Tokenizer) (v : ContentVariant) :
    (finalizeMetadata tk v).metadata.originalContent =
      (if v.metadata.wasTruncated.getD false = false then none
       else v.metadata.originalContent) := by
  simp only [finalizeMetadata]
  split_ifs <;> rfl

theorem fallbackClamp_content (tk : Tokenizer) (tL cL : Int) (lv : ContentVariant) :
    (fallbackClamp tk tL cL lv).content =
      (applyOutputLimits tk lv.content (some tL) (some cL)).text := rfl

theorem fallbackClamp_wasTruncated (tk : Tokenizer) (tL cL : Int) (lv : ContentVariant) :
    (fallbackClamp tk tL cL lv).metadata.wasTruncated = some true := by
  simp only [fallbackClamp]
  split_ifs <;> rfl

theorem fallbackClamp_originalContent (tk : Tokenizer) (tL cL : Int) (lv : ContentVariant) :
    (fallbackClamp tk tL cL lv).metadata.originalContent =
      some (lv.metadata.originalContent.getD lv.content) := by
  simp only [fallbackClamp]
  split_ifs <;> rfl

/-- The accept check of the attempt loop, negated. -/
def overLimits (charLimit tokenLimit : Int) (v : ContentVariant) : Prop :=
  ¬((v.metadata.length : Int) ≤ charLimit ∧
    ((v.metadata.tokenLength.getD 0 : Nat) : Int) ≤ tokenLimit)

theorem genAttempts_shape (tk : Tokenizer) (llm : Llm) (req : ContentRequest) (i : Nat)
    (cL tL : Int) :
    ∀ (remaining attempt : Nat) (last : Option ContentVariant),
      (∀ lv, last = some lv → CandShape tk lv ∧ overLimits cL tL lv) →
      ∀ {acc lst : Option ContentVariant},
      genAttempts tk llm req i cL tL attempt remaining last = .ok (acc, lst) →
      (∀ v, acc = some v → CandShape tk v) ∧
      (∀ lv, lst = some lv → CandShape tk lv ∧ (acc = none → overLimits cL tL lv)) := by
  intro remaining
  induction remaining with
  | zero =>
    intro attempt last hlast acc lst h
    simp only [genAttempts, Except.ok.injEq, Prod.mk.injEq] at h
    obtain ⟨h1, h2⟩ := h
    subst h1
    subst h2
    exact ⟨fun v hv => (nomatch hv), fun lv hlv => ⟨(hlast lv hlv).1,
      fun _ => (hlast lv hlv).2⟩⟩
  | succ remaining ih =>
    intro attempt last hlast acc lst h
    simp only [genAttempts] at h
    cases hl : llm i attempt with
    | error e =>
      rw [hl] at h
      simp at h
    | ok resp =>
      rw [hl] at h
      dsimp only at h
      split at h
      · rename_i hacc
        simp only [Except.ok.injEq, Prod.mk.injEq] at h
        obtain ⟨h1, h2⟩ := h
        subst h1
        subst h2
        refine ⟨fun v hv => ?_, fun lv hlv => ?_⟩
        · cases hv
          exact parse_setMeasured_candShape tk _ _ req
        · cases hlv
          exact ⟨parse_setMeasured_candShape tk _ _ req, fun habs => by cases habs⟩
      · rename_i hacc
        exact ih (attempt + 1) _ (fun lv hlv => by
          cases hlv
          exact ⟨parse_setMeasured_candShape tk _ _ req, hacc⟩) h

theorem runVariant_shape {tk : Tokenizer} (hA : tk.ReencodeStable) (hB : tk.PrefixStable)
    {llm : Llm} {req : ContentRequest} {i : Nat} {cL tL : Int} {v : ContentVariant}
    (hcL : 0 < cL) (htL : 0 < tL)
    (h : runVariant tk llm req i cL tL = .ok v) : ShapeInv v := by
  unfold runVariant at h
  cases hg : genAttempts tk llm req i cL tL 1 4 none with
  | error e =>
    rw [hg] at h
    simp at h
  | ok p =>
    rw [hg] at h
    obtain ⟨acc, lst⟩ := p
    have hinv := genAttempts_shape tk llm req i cL tL 4 1 none
      (fun lv hlv => by cases hlv) hg
    cases acc with
    | some w =>
      dsimp only at h
      simp only [Except.ok.injEq] at h
      subst h
      have hw := hinv.1 w rfl
      right
      constructor
      · rw [finalizeMetadata_wasTruncated, hw.1]
        decide
      · rw [finalizeMetadata_originalContent, hw.1]
        rfl
    | none =>
      cases lst with
      | none =>
        dsimp only at h
        simp at h
      | some lv =>
        dsimp only at h
        simp only [Except.ok.injEq] at h
        subst h
        obtain ⟨hshape, hover'⟩ := hinv.2 lv rfl
        have hover := hover' rfl
        obtain ⟨hwt0, hoc0, hmlen, hmtok⟩ := hshape
        have hdisj : cL < (lv.content.length : Int) ∨
            tL < ((countTokens tk lv.content : Nat) : Int) := by
          unfold overLimits at hover
          rw [hmlen, hmtok] at hover
          rcases not_and_or.mp hover with h1 | h1
          · exact Or.inl (by simpa using not_le.mp h1)
          · exact Or.inr (by simpa using not_le.mp h1)
        have hstrict : (applyOutputLimits tk lv.content (some tL)
            (some cL)).text.length < lv.content.length :=
          applyOutputLimits_over_lt hA hB htL hcL hdisj
        left
        have hfwt : (fallbackClamp tk tL cL lv).metadata.wasTruncated = some true :=
          fallbackClamp_wasTruncated tk tL cL lv
        constructor
        · rw [finalizeMetadata_wasTruncated, hfwt]
        · refine ⟨lv.content, ?_, ?_⟩
          · rw [finalizeMetadata_originalContent, hfwt]
            simp only [Option.getD_some]
            rw [if_neg (by decide), fallbackClamp_originalContent, hoc0]
            rfl
          · rw [finalizeMetadata_content, fallbackClamp_content]
            exact hstrict

theorem runVariantsGo_shape {tk : Tokenizer} (hA : tk.ReencodeStable)
    (hB : tk.PrefixStable) {llm : Llm} {req : ContentRequest} {cL tL : Int}
    (hcL : 0 < cL) (htL : 0 < tL) :
    ∀ (remaining i : Nat) (acc : List ContentVariant),
      (∀ v ∈ acc, ShapeInv v) →
      ∀ {vs : List ContentVariant},
      runVariantsGo tk llm req cL tL i remaining acc = .ok vs →
      ∀ v ∈ vs, ShapeInv v := by
  intro remaining
  induction remaining with
  | zero =>
    intro i acc hacc vs h
    simp only [runVariantsGo, Except.ok.injEq] at h
    subst h
    exact hacc
  | succ remaining ih =>
    intro i acc hacc vs h
    simp only [runVariantsGo] at h
    cases hr : runVariant tk llm req i cL tL with
    | error e =>
      rw [hr] at h
      simp at h
    | ok w =>
      rw [hr] at h
      dsimp only at h
      refine ih (i + 1) (acc ++ [w]) ?_ h
      intro v hv
      rcases List.mem_append.mp hv with hv | hv
      · exact hacc v hv
      · rw [List.mem_singleton.mp hv]
        exact runVariant_shape hA hB hcL htL hr

theorem genTokenLimit_pos {req : ContentRequest} (hpos : PositiveLimits req.options) :
    0 < genTokenLimit req := by
  unfold genTokenLimit
  rcases hmt : req.options.maxTokens with _ | x
  · rcases hml : req.options.maxLength with _ | y
    · exact ceilDiv4_pos (by norm_num)
    · exact ceilDiv4_pos (by simpa using hpos.1 y hml)
  · exact hpos.2 x hmt

theorem genCharLimit_pos {req : ContentRequest} (hpos : PositiveLimits req.options) :
    0 < genCharLimit req := by
  unfold genCharLimit
  rcases hml : req.options.maxLength with _ | y
  · have := genTokenLimit_pos hpos
    simp only [Option.getD_none]
    omega
  · simpa using hpos.1 y hml

theorem runVariants_shape {tk : Tokenizer} (hA : tk.ReencodeStable)
    (hB : tk.PrefixStable) {llm : Llm} {req : ContentRequest}
    (hpos : PositiveLimits req.options) {vs : List ContentVariant}
    (h : runVariants tk llm req = .ok vs) : ∀ v ∈ vs, ShapeInv v :=
  runVariantsGo_shape hA hB (genCharLimit_pos hpos) (genTokenLimit_pos hpos) _ 0 []
    (fun _ hv => absurd hv (List.not_mem_nil _)) h

theorem metadataPhase_wasTruncated (tk : Tokenizer) (limits : LimitEnforcementResult)
    (orig c3 : Str) (md0 : VariantMetadata) :
    (metadataPhase tk limits orig c3 md0).wasTruncated =
      if limits.wasTruncated then some true else md0.wasTruncated := by
  simp only [metadataPhase]
  split_ifs <;> rfl

theorem metadataPhase_originalContent (tk : Tokenizer) (limits : LimitEnforcementResult)
    (orig c3 : Str) (md0 : VariantMetadata) :
    (metadataPhase tk limits orig c3 md0).originalContent =
      if limits.wasTruncated then some (md0.originalContent.getD orig)
      else md0.originalContent := by
  simp only [metadataPhase]
  split_ifs <;> rfl

theorem processVariant_metadata (tk : Tokenizer) (req : ContentRequest)
    (v : ContentVariant) :
    (processVariant tk req v).metadata =
      metadataPhase tk (applyOutputLimits tk v.content (some (resolvedMaxTokens req))
        (some (resolvedMaxLength req))) v.content (processVariant tk req v).content
        v.metadata := rfl

/-- The truncation-marking invariant holds for each processed variant,
given the shape the generation loop guarantees. -/
theorem processVariant_iff {tk : Tokenizer} (hA : tk.ReencodeStable)
    (hB : tk.PrefixStable) {req : ContentRequest} (hpos : PositiveLimits req.options)
    {v₀ : ContentVariant} (hs : ShapeInv v₀) :
    ((processVariant tk req v₀).metadata.wasTruncated = some true ↔
      ∃ oc, (processVariant tk req v₀).metadata.originalContent = some oc ∧
        oc ≠ (processVariant tk req v₀).content) := by
  have hmT := resolvedMaxTokens_pos hpos
  have hmL := resolvedMaxLength_pos hpos
  have hwt := metadataPhase_wasTruncated tk
    (applyOutputLimits tk v₀.content (some (resolvedMaxTokens req))
      (some (resolvedMaxLength req))) v₀.content (processVariant tk req v₀).content
    v₀.metadata
  have hoc := metadataPhase_originalContent tk
    (applyOutputLimits tk v₀.content (some (resolvedMaxTokens req))
      (some (resolvedMaxLength req))) v₀.content (processVariant tk req v₀).content
    v₀.metadata
  rw [← processVariant_metadata] at hwt hoc
  have hlen3 := processVariant_content_le_limit tk req v₀
  by_cases hw : (applyOutputLimits tk v₀.content (some (resolvedMaxTokens req))
      (some (resolvedMaxLength req))).wasTruncated = true
  · rw [hwt, if_pos hw, hoc, if_pos hw]
    rcases hs with ⟨hw₀, oc₀, hoc₀, hlt₀⟩ | ⟨hne₀, hnone₀⟩
    · rw [hoc₀]
      simp only [Option.getD_some]
      refine ⟨fun _ => ⟨oc₀, rfl, ?_⟩, fun _ => trivial⟩
      have hle : (applyOutputLimits tk v₀.content (some (resolvedMaxTokens req))
          (some (resolvedMaxLength req))).text.length ≤ v₀.content.length :=
        applyOutputLimits_length_le_self hB _ _ _
      intro heq
      have : oc₀.length < oc₀.length := by
        calc oc₀.length = (processVariant tk req v₀).content.length := by rw [heq]
          _ ≤ _ := hlen3
          _ ≤ v₀.content.length := hle
          _ < oc₀.length := hlt₀
      omega
    · rw [hnone₀]
      simp only [Option.getD_none]
      refine ⟨fun _ => ⟨v₀.content, rfl, ?_⟩, fun _ => trivial⟩
      have hstrict := applyOutputLimits_truncated_lt hA hB hmT hmL hw
      intro heq
      have : v₀.content.length < v₀.content.length := by
        calc v₀.content.length = (processVariant tk req v₀).content.length := by rw [heq]
          _ ≤ _ := hlen3
          _ < v₀.content.length := hstrict
      omega
  · have hw' : (applyOutputLimits tk v₀.content (some (resolvedMaxTokens req))
        (some (resolvedMaxLength req))).wasTruncated = false :=
      Bool.not_eq_true _ ▸ (by simpa using hw)
    have htext := applyOutputLimits_not_truncated hw'
    rw [hwt, if_neg hw, hoc, if_neg hw]
    rcases hs with ⟨hw₀, oc₀, hoc₀, hlt₀⟩ | ⟨hne₀, hnone₀⟩
    · refine ⟨fun _ => ⟨oc₀, hoc₀, ?_⟩, fun _ => hw₀⟩
      intro heq
      have : oc₀.length < oc₀.length := by
        calc oc₀.length = (processVariant tk req v₀).content.length := by rw [heq]
          _ ≤ _ := hlen3
          _ = v₀.content.length := by rw [htext]
          _ < oc₀.length := hlt₀
      omega
    · refine iff_of_false hne₀ ?_
      rw [hnone₀]
      rintro ⟨oc, hoc', _⟩
      cases hoc'

/-- C3: for every variant of the pipeline's result,
`metadata.wasTruncated = true` holds iff `metadata.originalContent` is set
and differs from the final content (for requests with positive limits and
a prefix/reencode-stable tokenizer). -/
theorem C3_truncation_marking {tk : Tokenizer} (hA : tk.ReencodeStable)
    (hB : tk.PrefixStable) (llm : Llm) (persona : Persona) (req : ContentRequest)
    (now elapsed : Int) (hpos : PositiveLimits req.options) :
    ∀ v ∈ (generateWithDirectOllama tk llm persona req now elapsed).variants,
      (v.metadata.wasTruncated = some true ↔
        ∃ oc, v.metadata.originalContent = some oc ∧ oc ≠ v.content) := by
  intro v hv
  unfold generateWithDirectOllama at hv
  cases hrun : runVariants tk llm req with
  | error e =>
    rw [hrun] at hv
    simp at hv
  | ok vs =>
    rw [hrun] at hv
    dsimp only at hv
    obtain ⟨v₀, hv₀, rfl⟩ := validateOutput_mem_variants hv
    exact processVariant_iff hA hB hpos (runVariants_shape hA hB hpos hrun v₀ hv₀)

/-- The variant produced by the concrete C3 witness run. -/
def c3WitnessVar : ContentVariant :=
  processVariant charTok c6Req (finalizeMetadata charTok (setMeasured charTok
    (parseGeneratedContent (strL ("short post")) (strL ("variant_") ++ natToStr 1) c6Req)))

/-- Witness for C3 at a concrete accepted run. -/
theorem C3_truncation_witness :
    charTok.ReencodeStable ∧ charTok.PrefixStable ∧ PositiveLimits c6Req.options ∧
    (generateWithDirectOllama charTok c7llm demoPersona c6Req 0 0).variants =
      [c3WitnessVar] ∧
    (c3WitnessVar.metadata.wasTruncated = some true ↔
      ∃ oc, c3WitnessVar.metadata.originalContent = some oc ∧
        oc ≠ c3WitnessVar.content) := by
  have hpos : PositiveLimits c6Req.options := by
    constructor <;> intro x hx <;> simp [c6Req] at hx <;> omega
  have hlist : (generateWithDirectOllama charTok c7llm demoPersona c6Req 0 0).variants =
      [c3WitnessVar] := rfl
  have hmem : c3WitnessVar ∈
      (generateWithDirectOllama charTok c7llm demoPersona c6Req 0 0).variants := by
    rw [hlist]
    exact List.mem_singleton.mpr rfl
  exact ⟨charTok_reencodeStable, charTok_prefixStable, hpos, hlist,
    C3_truncation_marking charTok_reencodeStable charTok_prefixStable c7llm demoPersona
      c6Req 0 0 hpos c3WitnessVar hmem⟩

end XPostLab
